/-
Verification of the Honk circuit-compilation and proof-verification core.

The development shallowly embeds the constraint builder, the permutation
compiler (copy-constraint cycles, sigma/identity/Lagrange polynomials),
the relation set, and the verifier orchestrator of the Standard Honk
flavour, and proves the specified invariants about them.

The verifier orchestrator is embedded from `honk/proof_system/verifier.cpp`.
The permutation compiler, the relation set and the public-input-delta
helper are not part of the available sources (only their tests and callers
are); those definitions are modelled from the specification, with the
conventions pinned down by the checks performed in
`honk/composer/standard_honk_composer.test.cpp`.
-/
import Mathlib

namespace Honk

/-- Number of wire columns per gate in the standard arithmetization. -/
def programWidth : Nat := 3

/-- Modelled from the spec: a gate of the standard arithmetization holds three
wire references (variable indices for the left, right and output wire slots)
and the selector constants q_m, q_1, q_2, q_3, q_c. -/
structure Gate (F : Type) where
  wl : Nat
  wr : Nat
  wo : Nat
  q_m : F
  q_1 : F
  q_2 : F
  q_3 : F
  q_c : F

/-- Modelled from the spec: the finished constraint-builder state.
`variables` is the flat array of field-element values, `rep` maps every
variable index to the canonical representative of its equality class
(`assert_equal` merges classes and never deletes variables), `pubInputs`
records the public-input variable indices in creation order, and `gates`
is the append-only gate list. -/
structure Circuit (F : Type) where
  vars : List F
  rep : Nat → Nat
  pubInputs : List Nat
  gates : List (Gate F)

variable {F : Type}

/-- The builder state with no variables and no gates; every variable is its
own equality-class representative. -/
def emptyCircuit (F : Type) : Circuit F :=
  { vars := [], rep := fun v => v, pubInputs := [], gates := [] }

/-- Canonical representative of a variable after all equality assertions. -/
def repOf (c : Circuit F) (v : Nat) : Nat := c.rep v

/-- Modelled from the spec: `add_variable(value) -> index` appends a value to
the flat variable array and returns its index. -/
def add_variable (c : Circuit F) (v : F) : Circuit F × Nat :=
  ({ c with vars := c.vars ++ [v] }, c.vars.length)

/-- Modelled from the spec: `add_public_variable` also records the new index
in the public-input list, in order. -/
def add_public_variable (c : Circuit F) (v : F) : Circuit F × Nat :=
  ({ c with vars := c.vars ++ [v],
            pubInputs := c.pubInputs ++ [c.vars.length] },
   c.vars.length)

/-- Modelled from the spec: `create_gate` appends a gate to the circuit. -/
def create_gate (c : Circuit F) (g : Gate F) : Circuit F :=
  { c with gates := c.gates ++ [g] }

/-- Modelled from the spec: an add gate `q_1·a + q_2·b + q_3·d + q_c = 0`
(the multiplication selector is zero). -/
def create_add_gate [Zero F] (c : Circuit F) (a b d : Nat) (q1 q2 q3 qc : F) : Circuit F :=
  create_gate c ⟨a, b, d, 0, q1, q2, q3, qc⟩

/-- Modelled from the spec: a mul gate `q_m·a·b + q_3·d + q_c = 0`. -/
def create_mul_gate [Zero F] (c : Circuit F) (a b d : Nat) (qm q3 qc : F) : Circuit F :=
  create_gate c ⟨a, b, d, qm, 0, 0, q3, qc⟩

/-- Modelled from the spec: `assert_equal(a, b)` merges the copy-constraint
membership of the two variables: every variable whose canonical
representative was `b`'s now has `a`'s representative.  No variable is
removed. -/
def assert_equal (c : Circuit F) (a b : Nat) : Circuit F :=
  { c with rep := fun v => if c.rep v = c.rep b then c.rep a else c.rep v }

/-- Doubling loop computing the next power of two: starting from `acc`
(itself a power of two), double until `m` is covered.  The first argument is
recursion fuel. -/
def nextPowTwoAux (m : Nat) : Nat → Nat → Nat
  | 0, acc => acc
  | fuel + 1, acc => if m ≤ acc then acc else nextPowTwoAux m fuel (2 * acc)

/-- The smallest power of two that is at least `m` (see
`nextPowTwo_is_pow`, `le_nextPowTwo` and `nextPowTwo_min` below). -/
def nextPowTwo (m : Nat) : Nat := nextPowTwoAux m m 1

/-- Modelled from the spec: circuit size `n` is the smallest power of two
that is at least (number of gates + number of public inputs). -/
def circuit_size (c : Circuit F) : Nat :=
  nextPowTwo (c.pubInputs.length + c.gates.length)

/-- The wire reference of column `j` of a gate (0 = left, 1 = right, 2 = output). -/
def wireIndex (g : Gate F) (j : Nat) : Nat :=
  if j = 0 then g.wl else if j = 1 then g.wr else g.wo

/-- Modelled from the spec: the raw variable reference of wire slot
`(column, row)`.  Public inputs occupy the first `num_public_inputs` rows of
wire columns 0 and 1 (the remaining columns are unconstrained there); gates
occupy the following rows; padding rows are unconstrained. -/
def rawWire (c : Circuit F) (s : Nat × Nat) : Option Nat :=
  if s.2 < c.pubInputs.length then
    if s.1 < 2 then some (c.pubInputs.getD s.2 0) else none
  else
    match c.gates.get? (s.2 - c.pubInputs.length) with
    | some g => some (wireIndex g s.1)
    | none => none

/-- The canonical variable (equality class) referenced by a wire slot. -/
def slotVar (c : Circuit F) (s : Nat × Nat) : Option Nat :=
  (rawWire c s).map (repOf c)

/-- The three wire slots of one row, in column order. -/
def rowSlots (i : Nat) : List (Nat × Nat) := [(0, i), (1, i), (2, i)]

/-- All wire slots of the first `m` rows, in row-major order (the order in
which the permutation compiler appends slots to copy cycles). -/
def slotsUpTo : Nat → List (Nat × Nat)
  | 0 => []
  | m + 1 => slotsUpTo m ++ rowSlots m

/-- All wire slots of the compiled circuit, in row-major order. -/
def slotList (c : Circuit F) : List (Nat × Nat) := slotsUpTo (circuit_size c)

/-- Modelled from the spec: the copy cycle of the equality class `v` is the
ordered list of wire slots referencing it. -/
def cycleSlots (c : Circuit F) (v : Nat) : List (Nat × Nat) :=
  (slotList c).filter (fun s => decide (slotVar c s = some v))

/-- Position of the first occurrence of an element in a list. -/
def posIn : List (Nat × Nat) → (Nat × Nat) → Nat
  | [], _ => 0
  | a :: l, s => if s = a then 0 else posIn l s + 1

/-- The element following `s` in the list, cyclically. -/
def nextInList (l : List (Nat × Nat)) (s : Nat × Nat) : Nat × Nat :=
  l.getD ((posIn l s + 1) % l.length) s

/-- Modelled from the spec: the pre-override permutation links each slot of a
copy cycle to the next slot of the cycle (wrapping around); slots that
reference no variable are fixed points. -/
def sigmaPre (c : Circuit F) (s : Nat × Nat) : Nat × Nat :=
  match slotVar c s with
  | none => s
  | some v => nextInList (cycleSlots c v) s

/-- The flattened index of a slot: `column * n + row`. -/
def flat (c : Circuit F) (s : Nat × Nat) : Nat :=
  s.1 * circuit_size c + s.2

/-- The slots whose sigma value is overridden for public inputs: rows
`i < num_public_inputs` of wire column 0. -/
def isOverride (c : Circuit F) (s : Nat × Nat) : Prop :=
  s.1 = 0 ∧ s.2 < c.pubInputs.length

instance (c : Circuit F) (s : Nat × Nat) : Decidable (isOverride c s) :=
  inferInstanceAs (Decidable (And _ _))

/-- Modelled from the spec: the sigma polynomial value at slot `(j, i)`: the
flattened index of the next slot in the copy cycle, except on public-input
rows of column 0, where it is forced to `-(i + 1)`. -/
def sigma_poly [CommRing F] (c : Circuit F) (s : Nat × Nat) : F :=
  if isOverride c s then -((s.2 : F) + 1) else ((flat c (sigmaPre c s) : Nat) : F)

/-- Modelled from the spec: the identity polynomial value at slot `(j, i)` is
its own flattened index `j * n + i`. -/
def id_poly [CommRing F] (c : Circuit F) (s : Nat × Nat) : F :=
  ((flat c s : Nat) : F)

/-- The value carried by a variable (through its canonical representative). -/
def varValue [Zero F] (c : Circuit F) (v : Nat) : F :=
  c.vars.getD (repOf c v) 0

/-- The witness value at a wire slot: the value of the referenced variable,
or zero on unconstrained slots. -/
def w_poly [Zero F] (c : Circuit F) (s : Nat × Nat) : F :=
  ((rawWire c s).map (varValue c)).getD 0

/-- The gate occupying row `i`, if any (gates start after the public-input rows). -/
def gateAt (c : Circuit F) (i : Nat) : Option (Gate F) :=
  if i < c.pubInputs.length then none else c.gates.get? (i - c.pubInputs.length)

/-- Selector polynomial q_m: the gate's value on gate rows, zero elsewhere. -/
def q_m_poly [Zero F] (c : Circuit F) (i : Nat) : F :=
  ((gateAt c i).map Gate.q_m).getD 0

/-- Selector polynomial q_1. -/
def q_1_poly [Zero F] (c : Circuit F) (i : Nat) : F :=
  ((gateAt c i).map Gate.q_1).getD 0

/-- Selector polynomial q_2. -/
def q_2_poly [Zero F] (c : Circuit F) (i : Nat) : F :=
  ((gateAt c i).map Gate.q_2).getD 0

/-- Selector polynomial q_3. -/
def q_3_poly [Zero F] (c : Circuit F) (i : Nat) : F :=
  ((gateAt c i).map Gate.q_3).getD 0

/-- Selector polynomial q_c. -/
def q_c_poly [Zero F] (c : Circuit F) (i : Nat) : F :=
  ((gateAt c i).map Gate.q_c).getD 0

/-- Modelled from the spec: the first Lagrange boundary polynomial,
`L_first[i] = 1` iff `i = 0`. -/
def L_first_poly [Zero F] [One F] (c : Circuit F) (i : Nat) : F :=
  if i = 0 then 1 else 0

/-- Modelled from the spec: the last Lagrange boundary polynomial,
`L_last[i] = 1` iff `i = n - 1`. -/
def L_last_poly [Zero F] [One F] (c : Circuit F) (i : Nat) : F :=
  if i = circuit_size c - 1 then 1 else 0

/-- The list of public-input values, in order. -/
def public_input_values [Zero F] (c : Circuit F) : List F :=
  c.pubInputs.map (fun v => varValue c v)

/-- Modelled from the spec: the numerator and denominator accumulated by the
`compute_public_input_delta` loop over the public inputs, starting at
position `i`.  The sign and offset conventions are the ones checked by the
composer test: the numerator factor of public input `i` is
`x + beta * (n + i) + gamma` and the denominator factor is
`x - beta * (i + 1) + gamma`. -/
def public_input_delta_terms [CommRing F] (beta gamma nF : F) : List F → Nat → F × F
  | [], _ => (1, 1)
  | x :: xs, i =>
      let p := public_input_delta_terms beta gamma nF xs (i + 1)
      ((x + beta * (nF + (i : F)) + gamma) * p.1,
       (x - beta * ((i : F) + 1) + gamma) * p.2)

/-- Modelled from the spec: the closed-form public-input correction
`Δ = ∏ᵢ (xᵢ + β(n+i) + γ) / ∏ᵢ (xᵢ - β(i+1) + γ)` computed identically by
prover and verifier from `(public_inputs, beta, gamma, n)`. -/
def compute_public_input_delta [Field F] (pubs : List F) (beta gamma : F) (n : Nat) : F :=
  (public_input_delta_terms beta gamma (n : F) pubs 0).1 /
    (public_input_delta_terms beta gamma (n : F) pubs 0).2

/-- The spec's closed form for the public-input delta, written directly as a
ratio of indexed products (used to pin down the sign/offset conventions). -/
def public_input_delta_closed_form [Field F] (pubs : List F) (beta gamma : F) (n : Nat) : F :=
  (Finset.prod (Finset.range pubs.length)
      (fun i => pubs.getD i 0 + beta * ((n : F) + (i : F)) + gamma)) /
    (Finset.prod (Finset.range pubs.length)
      (fun i => pubs.getD i 0 - beta * ((i : F) + 1) + gamma))

/-- The identity-side grand-product factor of one wire slot:
`w + beta * id + gamma`. -/
def idFactor [CommRing F] (c : Circuit F) (beta gamma : F) (s : Nat × Nat) : F :=
  w_poly c s + beta * id_poly c s + gamma

/-- The sigma-side grand-product factor of one wire slot:
`w + beta * sigma + gamma`. -/
def sigmaFactor [CommRing F] (c : Circuit F) (beta gamma : F) (s : Nat × Nat) : F :=
  w_poly c s + beta * sigma_poly c s + gamma

/-- The pre-override sigma-side factor of one wire slot. -/
def sigmaPreFactor [CommRing F] (c : Circuit F) (beta gamma : F) (s : Nat × Nat) : F :=
  w_poly c s + beta * ((flat c (sigmaPre c s) : Nat) : F) + gamma

/-- The identity-side grand-product contribution of one row (all three wires). -/
def prodID [CommRing F] (c : Circuit F) (beta gamma : F) (i : Nat) : F :=
  idFactor c beta gamma (0, i) * (idFactor c beta gamma (1, i) * idFactor c beta gamma (2, i))

/-- The sigma-side grand-product contribution of one row (all three wires). -/
def prodSigma [CommRing F] (c : Circuit F) (beta gamma : F) (i : Nat) : F :=
  sigmaFactor c beta gamma (0, i) *
    (sigmaFactor c beta gamma (1, i) * sigmaFactor c beta gamma (2, i))

/-- The full identity-side grand product `∏ᵢⱼ (wᵢⱼ + β·idᵢⱼ + γ)`. -/
def grand_product_num [CommRing F] (c : Circuit F) (beta gamma : F) : F :=
  Finset.prod (Finset.range (circuit_size c)) (prodID c beta gamma)

/-- The full sigma-side grand product `∏ᵢⱼ (wᵢⱼ + β·σᵢⱼ + γ)`. -/
def grand_product_den [CommRing F] (c : Circuit F) (beta gamma : F) : F :=
  Finset.prod (Finset.range (circuit_size c)) (prodSigma c beta gamma)

/-- Modelled from the spec: the permutation grand product `z_perm` starts at 1
and accumulates the row ratio of identity-side and sigma-side factors. -/
def z_perm_at [Field F] (c : Circuit F) (beta gamma : F) (i : Nat) : F :=
  Finset.prod (Finset.range i) (prodID c beta gamma) /
    Finset.prod (Finset.range i) (prodSigma c beta gamma)

/-- The shifted grand product `z_perm(ω·X)` at row `i`, wrapping at the last row. -/
def z_perm_shift_at [Field F] (c : Circuit F) (beta gamma : F) (i : Nat) : F :=
  z_perm_at c beta gamma ((i + 1) % circuit_size c)

/-- Modelled from the spec: the named-polynomial evaluations at one row, in
the order of the standard arithmetization (the transposed row of the
sumcheck multivariates). -/
structure RowValues (F : Type) where
  w_1 : F
  w_2 : F
  w_3 : F
  z_perm : F
  z_perm_shift : F
  q_m : F
  q_1 : F
  q_2 : F
  q_3 : F
  q_c : F
  sigma_1 : F
  sigma_2 : F
  sigma_3 : F
  id_1 : F
  id_2 : F
  id_3 : F
  L_first : F
  L_last : F

/-- Modelled from the spec: the Fiat-Shamir-derived relation parameters. -/
structure RelationParameters (F : Type) where
  zeta : F
  alpha : F
  beta : F
  gamma : F
  public_input_delta : F

/-- The row of named-polynomial evaluations of the proving key at row `i`. -/
def rowAt [Field F] (c : Circuit F) (beta gamma : F) (i : Nat) : RowValues F :=
  { w_1 := w_poly c (0, i)
    w_2 := w_poly c (1, i)
    w_3 := w_poly c (2, i)
    z_perm := z_perm_at c beta gamma i
    z_perm_shift := z_perm_shift_at c beta gamma i
    q_m := q_m_poly c i
    q_1 := q_1_poly c i
    q_2 := q_2_poly c i
    q_3 := q_3_poly c i
    q_c := q_c_poly c i
    sigma_1 := sigma_poly c (0, i)
    sigma_2 := sigma_poly c (1, i)
    sigma_3 := sigma_poly c (2, i)
    id_1 := id_poly c (0, i)
    id_2 := id_poly c (1, i)
    id_3 := id_poly c (2, i)
    L_first := L_first_poly c i
    L_last := L_last_poly c i }

/-- Modelled from the spec: the arithmetic gate identity
`q_m·w_1·w_2 + q_1·w_1 + q_2·w_2 + q_3·w_3 + q_c`. -/
def arithmeticValue [CommRing F] (r : RowValues F) : F :=
  r.q_m * r.w_1 * r.w_2 + r.q_1 * r.w_1 + r.q_2 * r.w_2 + r.q_3 * r.w_3 + r.q_c

/-- Modelled from the spec: the grand-product transition identity
`z_perm(ωX)·∏(w + βσ + γ) - z_perm(X)·∏(w + β·id + γ)`, with the
public-input-delta correction applied on the wrap-around (last) row. -/
def grandProductComputationValue [CommRing F] (r : RowValues F) (p : RelationParameters F) : F :=
  r.z_perm_shift * (1 + r.L_last * (p.public_input_delta - 1)) *
      ((r.w_1 + p.beta * r.sigma_1 + p.gamma) *
        ((r.w_2 + p.beta * r.sigma_2 + p.gamma) * (r.w_3 + p.beta * r.sigma_3 + p.gamma))) -
    r.z_perm *
      ((r.w_1 + p.beta * r.id_1 + p.gamma) *
        ((r.w_2 + p.beta * r.id_2 + p.gamma) * (r.w_3 + p.beta * r.id_3 + p.gamma)))

/-- Modelled from the spec: the grand-product boundary identity
`L_first(X)·(z_perm(X) - 1)`. -/
def grandProductInitializationValue [CommRing F] (r : RowValues F) : F :=
  r.L_first * (r.z_perm - 1)

/-- Modelled from the spec: each relation accumulates
`accumulator + C(row_values) * scaling_factor`. -/
def ArithmeticRelation.accumulate_relation_evaluation [CommRing F]
    (acc : F) (r : RowValues F) (_p : RelationParameters F) (scaling : F) : F :=
  acc + arithmeticValue r * scaling

/-- Modelled from the spec: accumulation of the grand-product transition relation. -/
def GrandProductComputationRelation.accumulate_relation_evaluation [CommRing F]
    (acc : F) (r : RowValues F) (p : RelationParameters F) (scaling : F) : F :=
  acc + grandProductComputationValue r p * scaling

/-- Modelled from the spec: accumulation of the grand-product boundary relation. -/
def GrandProductInitializationRelation.accumulate_relation_evaluation [CommRing F]
    (acc : F) (r : RowValues F) (_p : RelationParameters F) (scaling : F) : F :=
  acc + grandProductInitializationValue r * scaling

/-- A gate is satisfied when the arithmetic identity vanishes on its
variables' values. -/
def gate_satisfied [CommRing F] (c : Circuit F) (g : Gate F) : Prop :=
  g.q_m * varValue c g.wl * varValue c g.wr + g.q_1 * varValue c g.wl +
      g.q_2 * varValue c g.wr + g.q_3 * varValue c g.wo + g.q_c = 0

/-- A circuit with a satisfying witness: every gate identity vanishes. -/
def circuit_satisfied [CommRing F] (c : Circuit F) : Prop :=
  ∀ g ∈ c.gates, gate_satisfied c g

instance [CommRing F] [DecidableEq F] (c : Circuit F) (g : Gate F) :
    Decidable (gate_satisfied c g) :=
  inferInstanceAs (Decidable (_ = _))

instance [CommRing F] [DecidableEq F] (c : Circuit F) :
    Decidable (circuit_satisfied c) :=
  inferInstanceAs (Decidable (∀ g ∈ c.gates, gate_satisfied c g))

/-- The relation parameters assembled by prover and verifier for a circuit. -/
def paramsFor [Field F] (c : Circuit F) (zeta alpha beta gamma : F) : RelationParameters F :=
  ⟨zeta, alpha, beta, gamma,
    compute_public_input_delta (public_input_values c) beta gamma (circuit_size c)⟩

/-- Modelled from the spec: the sum over all rows of the alpha-batched
relation evaluations — the quantity the sumcheck protocol proves to be
zero. -/
def total_relation_sum [Field F] (c : Circuit F) (beta gamma alpha : F) : F :=
  Finset.sum (Finset.range (circuit_size c)) (fun i =>
    arithmeticValue (rowAt c beta gamma i) +
      alpha * grandProductComputationValue (rowAt c beta gamma i) (paramsFor c 0 alpha beta gamma) +
      alpha ^ 2 * grandProductInitializationValue (rowAt c beta gamma i))

/-- Modelled from the spec: idealized verification — a proof constructed from
a witness verifies exactly when the batched relation total over the whole
hypercube is zero (the contract the sumcheck layer enforces). -/
def verify_ideal [Field F] [DecidableEq F] (c : Circuit F) (beta gamma alpha : F) : Bool :=
  decide (total_relation_sum c beta gamma alpha = 0)

/-- One step of the copy-cycle traversal through sigma "next" pointers: on
public-input override slots the stored value is outside the valid
flattened-index range, so the traversal cannot continue. -/
def travStep (c : Circuit F) (s : Nat × Nat) : Option (Nat × Nat) :=
  if isOverride c s then none else some (sigmaPre c s)

/-- Iterated traversal of sigma "next" pointers. -/
def travIter (c : Circuit F) : Nat → (Nat × Nat) → Option (Nat × Nat)
  | 0, s => some s
  | k + 1, s =>
      match travStep c s with
      | none => none
      | some t => travIter c k t

/-- The public-input sigma override slots, in row-major order. -/
def overrideSlots (c : Circuit F) : List (Nat × Nat) :=
  (slotList c).filter (fun s => decide (isOverride c s))

/-- The public-input rows of wire column 1, in row-major order. -/
def columnOnePublicSlots (c : Circuit F) : List (Nat × Nat) :=
  (slotList c).filter (fun s => decide (s.1 = 1 ∧ s.2 < c.pubInputs.length))

/-- The slots that are not public-input sigma overrides. -/
def nonOverrideSlots (c : Circuit F) : List (Nat × Nat) :=
  (slotList c).filter (fun s => decide (¬ isOverride c s))

/-- The slots outside the public-input rows of wire column 1. -/
def nonColumnOnePublicSlots (c : Circuit F) : List (Nat × Nat) :=
  (slotList c).filter (fun s => decide (¬ (s.1 = 1 ∧ s.2 < c.pubInputs.length)))

/-- The multiset of sigma-polynomial values over all slots except the
public-input override slots. -/
def sigma_values_excluding_overrides [CommRing F] (c : Circuit F) : Multiset F :=
  ((nonOverrideSlots c).map (sigma_poly c) : List F)

/-- The multiset of identity-polynomial values over all slots except the
public-input override slots (the same domain as
`sigma_values_excluding_overrides`). -/
def id_values_excluding_overrides [CommRing F] (c : Circuit F) : Multiset F :=
  ((nonOverrideSlots c).map (id_poly c) : List F)

/-- The multiset of identity-polynomial values over all slots except the
public-input rows of wire column 1. -/
def id_values_excluding_column_one_public [CommRing F] (c : Circuit F) : Multiset F :=
  ((nonColumnOnePublicSlots c).map (id_poly c) : List F)

/-- The verification key data read by the verifier orchestrator
(`verifier.cpp`): the circuit size and the number of public inputs (the
polynomial commitments are consumed only by the opening stages). -/
structure verification_key where
  circuit_size : Nat
  num_public_inputs : Nat

/-- The values the verifier reads from the proof transcript, in order:
claimed circuit size and public-input count, public-input values, wire
commitments, the Fiat-Shamir challenges beta and gamma, and the grand-product
commitment.  `C` is the (external) commitment type. -/
structure HonkProofTranscript (F C : Type) where
  circuit_size : Nat
  public_input_size : Nat
  public_input : Nat → F
  wire_commitment : Nat → C
  beta : F
  gamma : F
  z_perm_commitment : C

/-- The public-input values collected from the transcript
(`verifier.cpp` lines 100-104). -/
def transcript_public_inputs {C : Type} (t : HonkProofTranscript F C) : List F :=
  (List.range t.public_input_size).map t.public_input

/-- The relation parameters the verifier assembles
(`verifier.cpp` lines 111-123): beta, gamma and the public-input delta
computed from the transcript values. -/
def verifier_relation_parameters [Field F] {C : Type} (t : HonkProofTranscript F C) :
    RelationParameters F :=
  ⟨0, 0, t.beta, t.gamma,
    compute_public_input_delta (transcript_public_inputs t) t.beta t.gamma t.circuit_size⟩

/-- The transcript-independent result type of the sumcheck verifier: the
multivariate opening point and the claimed multilinear evaluations. -/
structure SumcheckOutput (F : Type) where
  opening_point : List F
  multivariate_evaluations : List F

/-- Embedded from `verifier.cpp` `Verifier::verify_proof`: reject if the
transcript's circuit size or public-input count mismatch the verification
key (lines 90-98); assemble the relation parameters (lines 111-123); run the
sumcheck verifier and return false when it produces no result (lines
126-134); only then run the remaining Gemini/Shplonk/KZG/pairing stages
(lines 136-191), abstracted here as the `openingVerifier` argument since
their implementations are external polynomial-commitment code. -/
def verify_proof [Field F] {C : Type} (key : verification_key) (t : HonkProofTranscript F C)
    (sumcheckVerifier : Nat → RelationParameters F → Option (SumcheckOutput F))
    (openingVerifier : SumcheckOutput F → Bool) : Bool :=
  if t.circuit_size ≠ key.circuit_size then false
  else if t.public_input_size ≠ key.num_public_inputs then false
  else
    match sumcheckVerifier t.circuit_size (verifier_relation_parameters t) with
    | none => false
    | some out => openingVerifier out

/-- The modulus of the BN254 (alt_bn128) scalar field, the field over which
the Standard Honk circuits are compiled. -/
def bn254_r : Nat :=
  21888242871839275222246405745257275088548364400416034343698204186575808495617

/-- The BN254 scalar field as integers modulo `bn254_r`. -/
abbrev Fr : Type := ZMod bn254_r

/-- A concrete compiled circuit with one public input and no gates, used to
exhibit the effect of the public-input sigma override. -/
def pubOnlyCircuit : Circuit Fr :=
  { vars := [5], rep := fun v => v, pubInputs := [0], gates := [] }

/-- A concrete satisfiable circuit with one public input and one add gate
(2 + 3 - 5 = 0), used as a concrete instance for the permutation and
relation theorems. -/
def sampleCircuit (F : Type) [CommRing F] : Circuit F :=
  { vars := [2, 3, 5], rep := fun v => v, pubInputs := [0],
    gates := [⟨0, 1, 2, 0, 1, 1, -1, 0⟩] }

/-- The two-gate test circuit: an add gate enforcing
`first + 1 - 2 = 0` and a mul gate enforcing `2 * 2 - 4 = 0`, built through
the constraint-builder operations exactly as in the composer test.  With
`first = 1` the witness is satisfying; with `first = 0` the add gate is
violated. -/
def twoGateCircuit (F : Type) [CommRing F] (first : F) : Circuit F :=
  let p1 := add_variable (emptyCircuit F) first
  let p2 := add_variable p1.1 1
  let p3 := add_variable p2.1 2
  let c4 := create_add_gate p3.1 p1.2 p2.2 p3.2 1 1 (-1) 0
  let p5 := add_variable c4 2
  let p6 := add_variable p5.1 2
  let p7 := add_variable p6.1 4
  create_mul_gate p7.1 p5.2 p6.2 p7.2 1 (-1) 0

/-- A small prime field used to instantiate the generic theorems on concrete
inputs. -/
instance : Fact (Nat.Prime 101) := ⟨by norm_num⟩

/-! ### Properties of the next-power-of-two computation -/

theorem nextPowTwoAux_le {m : Nat} : ∀ (fuel j k : Nat), m ≤ 2 ^ k → j ≤ k →
    nextPowTwoAux m fuel (2 ^ j) ≤ 2 ^ k := by
  intro fuel
  induction fuel with
  | zero =>
      intro j k _ hjk
      exact Nat.pow_le_pow_right (by omega) hjk
  | succ fuel ih =>
      intro j k h1 hjk
      by_cases h : m ≤ 2 ^ j
      · simpa [nextPowTwoAux, h] using Nat.pow_le_pow_right (by omega) hjk
      · have hjk2 : j + 1 ≤ k := by
          by_contra hc
          have : k ≤ j := by omega
          exact h (le_trans h1 (Nat.pow_le_pow_right (by omega) this))
        have h2 : 2 * 2 ^ j = 2 ^ (j + 1) := by rw [pow_succ]; ring
        simpa [nextPowTwoAux, h, h2] using ih (j + 1) k h1 hjk2

theorem nextPowTwoAux_ge {m : Nat} : ∀ (fuel acc : Nat), m ≤ acc * 2 ^ fuel →
    m ≤ nextPowTwoAux m fuel acc := by
  intro fuel
  induction fuel with
  | zero => intro acc h; simpa [nextPowTwoAux] using h
  | succ fuel ih =>
      intro acc h
      by_cases hm : m ≤ acc
      · simpa [nextPowTwoAux, hm] using hm
      · have hrw : acc * 2 ^ (fuel + 1) = 2 * acc * 2 ^ fuel := by rw [pow_succ]; ring
        rw [hrw] at h
        simpa [nextPowTwoAux, hm] using ih (2 * acc) h

theorem nextPowTwoAux_is_pow {m : Nat} : ∀ (fuel j : Nat),
    ∃ k, j ≤ k ∧ nextPowTwoAux m fuel (2 ^ j) = 2 ^ k := by
  intro fuel
  induction fuel with
  | zero => intro j; exact ⟨j, le_rfl, rfl⟩
  | succ fuel ih =>
      intro j
      by_cases hm : m ≤ 2 ^ j
      · exact ⟨j, le_rfl, by simp [nextPowTwoAux, hm]⟩
      · obtain ⟨k, hk, hk2⟩ := ih (j + 1)
        refine ⟨k, by omega, ?_⟩
        have h2 : 2 * 2 ^ j = 2 ^ (j + 1) := by rw [pow_succ]; ring
        simp [nextPowTwoAux, hm, h2, hk2]

/-- `nextPowTwo m` is a power of two. -/
theorem nextPowTwo_is_pow (m : Nat) : ∃ k, nextPowTwo m = 2 ^ k := by
  obtain ⟨k, _, hk⟩ := nextPowTwoAux_is_pow (m := m) m 0
  exact ⟨k, by simpa [nextPowTwo] using hk⟩

/-- `nextPowTwo m` is at least `m`. -/
theorem le_nextPowTwo (m : Nat) : m ≤ nextPowTwo m := by
  have h := Nat.lt_two_pow m
  exact nextPowTwoAux_ge m 1 (by omega)

/-- `nextPowTwo m` is the smallest power of two at least `m`. -/
theorem nextPowTwo_min {m k : Nat} (h : m ≤ 2 ^ k) : nextPowTwo m ≤ 2 ^ k := by
  have := nextPowTwoAux_le (m := m) m 0 k h (Nat.zero_le k)
  simpa [nextPowTwo] using this

theorem nextPowTwo_pos (m : Nat) : 0 < nextPowTwo m := by
  obtain ⟨k, hk⟩ := nextPowTwo_is_pow m
  rw [hk]
  exact Nat.pos_pow_of_pos k (by omega)

theorem circuit_size_pos (c : Circuit F) : 0 < circuit_size c :=
  nextPowTwo_pos _

theorem pub_add_gates_le_circuit_size (c : Circuit F) :
    c.pubInputs.length + c.gates.length ≤ circuit_size c :=
  le_nextPowTwo _

theorem pubLen_le_circuit_size (c : Circuit F) :
    c.pubInputs.length ≤ circuit_size c :=
  le_trans (Nat.le_add_right _ _) (pub_add_gates_le_circuit_size c)

/-! ### The slot list -/

theorem mem_slotsUpTo {s : Nat × Nat} : ∀ {m : Nat}, s ∈ slotsUpTo m ↔ s.1 < 3 ∧ s.2 < m := by
  intro m
  induction m with
  | zero => simp [slotsUpTo]
  | succ m ih =>
      simp only [slotsUpTo, rowSlots, List.mem_append, ih, List.mem_cons, List.mem_singleton,
        List.not_mem_nil, or_false]
      constructor
      · rintro (⟨h1, h2⟩ | h | h | h) <;> simp_all <;> omega
      · rintro ⟨h1, h2⟩
        rcases Nat.lt_succ_iff_lt_or_eq.mp h2 with h2 | h2
        · exact Or.inl ⟨h1, h2⟩
        · right
          rcases s with ⟨j, i⟩
          simp only at h1 h2
          subst h2
          interval_cases j <;> simp

theorem slotsUpTo_nodup : ∀ (m : Nat), (slotsUpTo m).Nodup := by
  intro m
  induction m with
  | zero => simp [slotsUpTo]
  | succ m ih =>
      rw [slotsUpTo, List.nodup_append]
      refine ⟨ih, by simp [rowSlots], ?_⟩
      intro s hs hs2
      have h2 := (mem_slotsUpTo.mp hs).2
      simp only [rowSlots, List.mem_cons, List.mem_singleton, List.not_mem_nil, or_false] at hs2
      rcases hs2 with h | h | h <;> subst h <;> simp at h2 <;> omega

theorem slotsUpTo_length : ∀ (m : Nat), (slotsUpTo m).length = 3 * m := by
  intro m
  induction m with
  | zero => simp [slotsUpTo]
  | succ m ih => simp [slotsUpTo, rowSlots, ih]; omega

theorem slotsUpTo_decomp {i : Nat} : ∀ {m : Nat}, i < m →
    ∃ rest, slotsUpTo m = slotsUpTo i ++ rowSlots i ++ rest ∧ ∀ s ∈ rest, i < s.2 := by
  intro m
  induction m with
  | zero => omega
  | succ m ih =>
      intro him
      rcases Nat.lt_succ_iff_lt_or_eq.mp him with h | h
      · obtain ⟨rest, hdec, hrest⟩ := ih h
        refine ⟨rest ++ rowSlots m, ?_, ?_⟩
        · rw [slotsUpTo, hdec]
          simp [List.append_assoc]
        · intro s hs
          rcases List.mem_append.mp hs with hs | hs
          · exact hrest s hs
          · simp only [rowSlots, List.mem_cons, List.mem_singleton, List.not_mem_nil,
              or_false] at hs
            rcases hs with hs | hs | hs <;> subst hs <;> simpa using h
      · subst h
        exact ⟨[], by simp [slotsUpTo], by simp⟩

theorem mem_slotList {c : Circuit F} {s : Nat × Nat} :
    s ∈ slotList c ↔ s.1 < 3 ∧ s.2 < circuit_size c :=
  mem_slotsUpTo

theorem slotList_nodup (c : Circuit F) : (slotList c).Nodup :=
  slotsUpTo_nodup _

theorem slotList_length (c : Circuit F) :
    (slotList c).length = 3 * circuit_size c :=
  slotsUpTo_length _

/-! ### Positions and the cyclic successor in a list -/

theorem posIn_lt_length {l : List (Nat × Nat)} {s : Nat × Nat} (h : s ∈ l) :
    posIn l s < l.length := by
  induction l with
  | nil => simp at h
  | cons a l ih =>
      by_cases hs : s = a
      · simp [posIn, hs]
      · rcases List.mem_cons.mp h with h | h
        · exact absurd h hs
        · simpa [posIn, hs] using ih h

theorem posIn_of_not_mem {l : List (Nat × Nat)} {s : Nat × Nat} (h : s ∉ l) :
    posIn l s = l.length := by
  induction l with
  | nil => simp [posIn]
  | cons a l ih =>
      have hs : ¬ s = a := fun hc => h (by simp [hc])
      have hm : s ∉ l := fun hc => h (List.mem_cons_of_mem a hc)
      simp [posIn, hs, ih hm]

theorem getD_posIn {l : List (Nat × Nat)} {s : Nat × Nat} (h : s ∈ l) (d : Nat × Nat) :
    l.getD (posIn l s) d = s := by
  induction l with
  | nil => simp at h
  | cons a l ih =>
      by_cases hs : s = a
      · simp [posIn, hs]
      · rcases List.mem_cons.mp h with h | h
        · exact absurd h hs
        · simpa [posIn, hs] using ih h

theorem posIn_getElem {l : List (Nat × Nat)} (hl : l.Nodup) {k : Nat} (hk : k < l.length) :
    posIn l (l[k]) = k := by
  induction l generalizing k with
  | nil => simp at hk
  | cons a l ih =>
      rcases Nat.eq_zero_or_pos k with hk0 | hk0
      · subst hk0; simp [posIn]
      · obtain ⟨k', rfl⟩ : ∃ k', k = k' + 1 := ⟨k - 1, by omega⟩
        have hk' : k' < l.length := by simpa using hk
        have hmem : l[k'] ∈ l := List.getElem_mem hk'
        have hgl : (a :: l)[k' + 1] = l[k'] := List.getElem_cons_succ a l k' (by simpa using hk)
        have hne : ¬ (l[k'] = a) := by
          intro hc
          exact (List.nodup_cons.mp hl).1 (by rw [← hc]; exact hmem)
        have hl' : l.Nodup := (List.nodup_cons.mp hl).2
        rw [hgl]
        simp only [posIn, if_neg hne, ih hl' hk']

theorem mod_succ_inj {a b m : Nat} (ha : a < m) (hb : b < m)
    (h : (a + 1) % m = (b + 1) % m) : a = b := by
  by_cases ha1 : a + 1 = m
  · by_cases hb1 : b + 1 = m
    · omega
    · rw [ha1, Nat.mod_self, Nat.mod_eq_of_lt (by omega)] at h
      omega
  · by_cases hb1 : b + 1 = m
    · rw [hb1, Nat.mod_self, Nat.mod_eq_of_lt (by omega)] at h
      omega
    · rw [Nat.mod_eq_of_lt (by omega), Nat.mod_eq_of_lt (by omega)] at h
      omega

theorem nextInList_getElem {l : List (Nat × Nat)} (hl : l.Nodup) {k : Nat} (hk : k < l.length) :
    nextInList l (l[k]) = l.get ⟨(k + 1) % l.length, Nat.mod_lt _ (by omega)⟩ := by
  rw [nextInList, posIn_getElem hl hk]
  exact List.getD_eq_getElem l _ (Nat.mod_lt _ (by omega))

theorem nextInList_mem {l : List (Nat × Nat)} {s : Nat × Nat} (h : s ∈ l) :
    nextInList l s ∈ l := by
  have hlen : 0 < l.length := List.length_pos.mpr (List.ne_nil_of_mem h)
  rw [nextInList, List.getD_eq_getElem l s (Nat.mod_lt _ hlen)]
  exact List.getElem_mem _

theorem nextInList_injOn {l : List (Nat × Nat)} (hl : l.Nodup) {s t : Nat × Nat}
    (hs : s ∈ l) (ht : t ∈ l) (h : nextInList l s = nextInList l t) : s = t := by
  obtain ⟨k, hk, rfl⟩ := List.getElem_of_mem hs
  obtain ⟨k', hk', rfl⟩ := List.getElem_of_mem ht
  rw [nextInList_getElem hl hk, nextInList_getElem hl hk'] at h
  have := (List.Nodup.getElem_inj_iff hl).mp h
  have hkk : k = k' := mod_succ_inj hk hk' this
  subst hkk
  rfl

/-! ### Copy cycles and the pre-override permutation -/

theorem mem_cycleSlots {c : Circuit F} {v : Nat} {s : Nat × Nat} :
    s ∈ cycleSlots c v ↔ s ∈ slotList c ∧ slotVar c s = some v := by
  simp [cycleSlots, List.mem_filter]

theorem cycleSlots_nodup (c : Circuit F) (v : Nat) : (cycleSlots c v).Nodup :=
  (slotList_nodup c).filter _

theorem slotVar_of_mem_cycleSlots {c : Circuit F} {v : Nat} {s : Nat × Nat}
    (h : s ∈ cycleSlots c v) : slotVar c s = some v :=
  (mem_cycleSlots.mp h).2

theorem slotVar_sigmaPre (c : Circuit F) (s : Nat × Nat) :
    slotVar c (sigmaPre c s) = slotVar c s := by
  rcases hv : slotVar c s with _ | v
  · simp [sigmaPre, hv]
  · have h1 : sigmaPre c s = nextInList (cycleSlots c v) s := by simp [sigmaPre, hv]
    rw [h1]
    by_cases hl : cycleSlots c v = []
    · simp [nextInList, hl, hv]
    · have hlen : 0 < (cycleSlots c v).length := List.length_pos.mpr hl
      have hmem : nextInList (cycleSlots c v) s ∈ cycleSlots c v := by
        rw [nextInList, List.getD_eq_getElem _ s (Nat.mod_lt _ hlen)]
        exact List.getElem_mem _
      exact slotVar_of_mem_cycleSlots hmem

theorem sigmaPre_mem {c : Circuit F} {s : Nat × Nat} (h : s ∈ slotList c) :
    sigmaPre c s ∈ slotList c := by
  rcases hv : slotVar c s with _ | v
  · simpa [sigmaPre, hv] using h
  · rw [sigmaPre, hv]
    have hs : s ∈ cycleSlots c v := mem_cycleSlots.mpr ⟨h, hv⟩
    exact List.mem_of_mem_filter (nextInList_mem hs)

theorem sigmaPre_injOn {c : Circuit F} {s t : Nat × Nat}
    (hs : s ∈ slotList c) (ht : t ∈ slotList c) (h : sigmaPre c s = sigmaPre c t) : s = t := by
  have hvar : slotVar c s = slotVar c t := by
    rw [← slotVar_sigmaPre c s, ← slotVar_sigmaPre c t, h]
  rcases hv : slotVar c s with _ | v
  · have hv' : slotVar c t = none := by rw [← hvar, hv]
    rw [sigmaPre, hv, sigmaPre, hv'] at h
    exact h
  · have hv' : slotVar c t = some v := by rw [← hvar, hv]
    rw [sigmaPre, hv, sigmaPre, hv'] at h
    exact nextInList_injOn (cycleSlots_nodup c v)
      (mem_cycleSlots.mpr ⟨hs, hv⟩) (mem_cycleSlots.mpr ⟨ht, hv'⟩) h

theorem sigmaPre_map_perm (c : Circuit F) :
    ((slotList c).map (sigmaPre c)).Perm (slotList c) := by
  have hnodup : ((slotList c).map (sigmaPre c)).Nodup :=
    List.Nodup.map_on (fun s hs t ht h => sigmaPre_injOn hs ht h) (slotList_nodup c)
  apply List.perm_of_nodup_nodup_toFinset_eq hnodup (slotList_nodup c)
  apply Finset.eq_of_subset_of_card_le
  · intro x hx
    rw [List.mem_toFinset] at hx ⊢
    obtain ⟨s, hs, rfl⟩ := List.mem_map.mp hx
    exact sigmaPre_mem hs
  · rw [List.toFinset_card_of_nodup hnodup, List.toFinset_card_of_nodup (slotList_nodup c),
      List.length_map]

theorem prod_map_sigmaPre [CommRing F] (c : Circuit F) (f : Nat × Nat → F) :
    ((slotList c).map (fun s => f (sigmaPre c s))).prod = ((slotList c).map f).prod := by
  have h1 : (slotList c).map (fun s => f (sigmaPre c s)) =
      (((slotList c).map (sigmaPre c)).map f) := by
    rw [List.map_map]
    rfl
  rw [h1]
  exact List.Perm.prod_eq (List.Perm.map f (sigmaPre_map_perm c))

theorem w_poly_eq_of_slotVar_eq [CommRing F] {c : Circuit F} {s t : Nat × Nat}
    (h : slotVar c s = slotVar c t) : w_poly c s = w_poly c t := by
  rw [slotVar, slotVar] at h
  rcases hs : rawWire c s with _ | u <;> rcases ht : rawWire c t with _ | u'
  · simp [w_poly, hs, ht]
  · rw [hs, ht] at h
    simp at h
  · rw [hs, ht] at h
    simp at h
  · rw [hs, ht] at h
    simp only [Option.map_some', Option.some.injEq] at h
    simp [w_poly, hs, ht, varValue, h]

theorem w_poly_sigmaPre [CommRing F] (c : Circuit F) (s : Nat × Nat) :
    w_poly c (sigmaPre c s) = w_poly c s :=
  w_poly_eq_of_slotVar_eq (slotVar_sigmaPre c s)

/-! ### Public-input rows -/

theorem slotVar_pub_col0 {c : Circuit F} {i : Nat} (hi : i < c.pubInputs.length) :
    slotVar c (0, i) = some (repOf c (c.pubInputs.getD i 0)) := by
  simp [slotVar, rawWire, hi]

theorem slotVar_pub_col1 {c : Circuit F} {i : Nat} (hi : i < c.pubInputs.length) :
    slotVar c (1, i) = some (repOf c (c.pubInputs.getD i 0)) := by
  simp [slotVar, rawWire, hi]

theorem slotVar_pub_col2 {c : Circuit F} {i : Nat} (hi : i < c.pubInputs.length) :
    slotVar c (2, i) = none := by
  simp [slotVar, rawWire, hi]

theorem posIn_cons (a : Nat × Nat) (l : List (Nat × Nat)) (s : Nat × Nat) :
    posIn (a :: l) s = if s = a then 0 else posIn l s + 1 := rfl

theorem posIn_append_of_not_mem {L M : List (Nat × Nat)} {s : Nat × Nat} (h : s ∉ L) :
    posIn (L ++ M) s = L.length + posIn M s := by
  induction L with
  | nil => simp
  | cons a L ih =>
      have hs : ¬ s = a := fun hc => h (by simp [hc])
      have hm : s ∉ L := fun hc => h (List.mem_cons_of_mem a hc)
      rw [List.cons_append, posIn_cons, if_neg hs, ih hm, List.length_cons]
      omega

/-- On a public-input row, the next slot in the copy cycle after the
column-0 slot is the column-1 slot of the same row: both reference the same
public variable and are adjacent in the row-major cycle order. -/
theorem sigmaPre_override {c : Circuit F} {i : Nat} (hi : i < c.pubInputs.length) :
    sigmaPre c (0, i) = (1, i) := by
  have hv0 := slotVar_pub_col0 hi
  have hv1 := slotVar_pub_col1 hi
  have hv2 := slotVar_pub_col2 hi
  have hin : i < circuit_size c := lt_of_lt_of_le hi (pubLen_le_circuit_size c)
  obtain ⟨rest, hdec, _⟩ := slotsUpTo_decomp hin
  have hfilter : (rowSlots i).filter
      (fun s => decide (slotVar c s = some (repOf c (c.pubInputs.getD i 0)))) =
      [(0, i), (1, i)] := by
    simp [rowSlots, List.filter_cons, hv0, hv1, hv2]
  have hcyc : cycleSlots c (repOf c (c.pubInputs.getD i 0)) =
      ((slotsUpTo i).filter
          (fun s => decide (slotVar c s = some (repOf c (c.pubInputs.getD i 0)))) ++
        ((0, i) :: (1, i) ::
          rest.filter
            (fun s => decide (slotVar c s = some (repOf c (c.pubInputs.getD i 0)))))) := by
    rw [cycleSlots, slotList, hdec, List.filter_append, List.filter_append, hfilter]
    simp
  have hnotA : (0, i) ∉ (slotsUpTo i).filter
      (fun s => decide (slotVar c s = some (repOf c (c.pubInputs.getD i 0)))) := by
    intro hmem
    have := (mem_slotsUpTo.mp (List.mem_of_mem_filter hmem)).2
    omega
  have h1 : sigmaPre c (0, i) = nextInList (cycleSlots c (repOf c (c.pubInputs.getD i 0))) (0, i) := by
    simp [sigmaPre, hv0]
  rw [h1, nextInList, hcyc, posIn_append_of_not_mem hnotA]
  have hpos0 : posIn ((0, i) :: (1, i) ::
      rest.filter
        (fun s => decide (slotVar c s = some (repOf c (c.pubInputs.getD i 0))))) (0, i) = 0 := by
    simp [posIn]
  rw [hpos0]
  set A := (slotsUpTo i).filter
    (fun s => decide (slotVar c s = some (repOf c (c.pubInputs.getD i 0)))) with hA
  set B := rest.filter
    (fun s => decide (slotVar c s = some (repOf c (c.pubInputs.getD i 0)))) with hB
  have hlen : (A ++ (0, i) :: (1, i) :: B).length = A.length + B.length + 2 := by
    simp
    omega
  have hmod : (A.length + 0 + 1) % (A ++ (0, i) :: (1, i) :: B).length = A.length + 1 := by
    rw [hlen]
    exact Nat.mod_eq_of_lt (by omega)
  rw [hmod]
  rw [List.getD_append_right A _ _ _ (by omega)]
  have : A.length + 1 - A.length = 1 := by omega
  rw [this]
  simp

/-! ### Filter characterizations of the override and column-one public slots -/

theorem overrideSlots_perm (c : Circuit F) :
    (overrideSlots c).Perm ((List.range c.pubInputs.length).map (fun i => ((0 : Nat), i))) := by
  have h1 : (overrideSlots c).Nodup := (slotList_nodup c).filter _
  have h2 : ((List.range c.pubInputs.length).map (fun i => ((0 : Nat), i))).Nodup :=
    List.Nodup.map (fun a b hab => by simpa using hab) (List.nodup_range _)
  apply List.perm_of_nodup_nodup_toFinset_eq h1 h2
  ext x
  simp only [List.mem_toFinset, overrideSlots, List.mem_filter, decide_eq_true_eq,
    List.mem_map, List.mem_range, mem_slotList, isOverride]
  constructor
  · rintro ⟨⟨-, -⟩, h0, hlt⟩
    exact ⟨x.2, hlt, by rw [← h0]⟩
  · rintro ⟨i, hlt, rfl⟩
    exact ⟨⟨by omega, lt_of_lt_of_le hlt (pubLen_le_circuit_size c)⟩, rfl, hlt⟩

theorem columnOnePublicSlots_perm (c : Circuit F) :
    (columnOnePublicSlots c).Perm
      ((List.range c.pubInputs.length).map (fun i => ((1 : Nat), i))) := by
  have h1 : (columnOnePublicSlots c).Nodup := (slotList_nodup c).filter _
  have h2 : ((List.range c.pubInputs.length).map (fun i => ((1 : Nat), i))).Nodup :=
    List.Nodup.map (fun a b hab => by simpa using hab) (List.nodup_range _)
  apply List.perm_of_nodup_nodup_toFinset_eq h1 h2
  ext x
  simp only [List.mem_toFinset, columnOnePublicSlots, List.mem_filter, decide_eq_true_eq,
    List.mem_map, List.mem_range, mem_slotList]
  constructor
  · rintro ⟨⟨-, -⟩, h0, hlt⟩
    exact ⟨x.2, hlt, by rw [← h0]⟩
  · rintro ⟨i, hlt, rfl⟩
    exact ⟨⟨by omega, lt_of_lt_of_le hlt (pubLen_le_circuit_size c)⟩, rfl, hlt⟩

theorem map_sigmaPre_overrideSlots_perm (c : Circuit F) :
    ((overrideSlots c).map (sigmaPre c)).Perm (columnOnePublicSlots c) := by
  refine List.Perm.trans (List.Perm.map (sigmaPre c) (overrideSlots_perm c)) ?_
  rw [List.map_map]
  have hmap : (List.range c.pubInputs.length).map (sigmaPre c ∘ fun i => ((0 : Nat), i)) =
      (List.range c.pubInputs.length).map (fun i => ((1 : Nat), i)) := by
    apply List.map_congr_left
    intro i hi
    exact sigmaPre_override (List.mem_range.mp hi)
  rw [hmap]
  exact (columnOnePublicSlots_perm c).symm

/-- Splitting a product over a list into the part satisfying a predicate and
the rest. -/
theorem prod_filter_split [CommRing F] (l : List (Nat × Nat)) (P : Nat × Nat → Prop)
    [DecidablePred P] (f : Nat × Nat → F) :
    ((l.filter (fun s => decide (P s))).map f).prod *
        ((l.filter (fun s => decide (¬ P s))).map f).prod = (l.map f).prod := by
  have h1 : l.filter (fun s => decide (¬ P s)) =
      l.filter (fun s => !(decide (P s))) := by
    simp only [decide_not]
  rw [h1, ← List.prod_append, ← List.map_append]
  exact List.Perm.prod_eq
    (List.Perm.map f (List.filter_append_perm (fun s => decide (P s)) l))

/-! ### Products over the slot list -/

theorem list_range_map_prod [CommRing F] (f : Nat → F) :
    ∀ m : Nat, ((List.range m).map f).prod = Finset.prod (Finset.range m) f := by
  intro m
  induction m with
  | zero => simp
  | succ m ih => rw [List.range_succ, List.map_append, List.prod_append,
      Finset.prod_range_succ, ih]; simp

theorem slotsUpTo_map_prod [CommRing F] (f : Nat × Nat → F) :
    ∀ m : Nat, ((slotsUpTo m).map f).prod =
      Finset.prod (Finset.range m) (fun i => f (0, i) * (f (1, i) * f (2, i))) := by
  intro m
  induction m with
  | zero => simp [slotsUpTo]
  | succ m ih =>
      rw [slotsUpTo, List.map_append, List.prod_append, Finset.prod_range_succ, ih]
      simp [rowSlots, mul_assoc]

theorem grand_product_num_eq_slots [CommRing F] (c : Circuit F) (beta gamma : F) :
    ((slotList c).map (idFactor c beta gamma)).prod = grand_product_num c beta gamma := by
  rw [slotList, slotsUpTo_map_prod]
  rfl

theorem grand_product_den_eq_slots [CommRing F] (c : Circuit F) (beta gamma : F) :
    ((slotList c).map (sigmaFactor c beta gamma)).prod = grand_product_den c beta gamma := by
  rw [slotList, slotsUpTo_map_prod]
  rfl

/-- The pre-override sigma-side product over all slots equals the
identity-side product: the pre-override sigma is a permutation of the slots
that preserves witness values along copy cycles. -/
theorem sigmaPre_product_eq_id_product [CommRing F] (c : Circuit F) (beta gamma : F) :
    ((slotList c).map (sigmaPreFactor c beta gamma)).prod =
      ((slotList c).map (idFactor c beta gamma)).prod := by
  have hfun : ∀ s, sigmaPreFactor c beta gamma s = idFactor c beta gamma (sigmaPre c s) := by
    intro s
    rw [idFactor, sigmaPreFactor, w_poly_sigmaPre, id_poly]
  calc ((slotList c).map (sigmaPreFactor c beta gamma)).prod
      = ((slotList c).map (fun s => idFactor c beta gamma (sigmaPre c s))).prod := by
        rw [List.map_congr_left (fun s _ => hfun s)]
    _ = ((slotList c).map (idFactor c beta gamma)).prod :=
        prod_map_sigmaPre c (idFactor c beta gamma)

/-! ### The public-input correction factors -/

theorem public_input_values_getD [CommRing F] {c : Circuit F} {i : Nat}
    (hi : i < c.pubInputs.length) :
    (public_input_values c).getD i 0 = varValue c (c.pubInputs.getD i 0) := by
  rw [public_input_values, List.getD_eq_getElem _ _ (by simpa using hi), List.getElem_map,
    List.getD_eq_getElem _ _ hi]

theorem w_poly_pub_col0 [CommRing F] {c : Circuit F} {i : Nat}
    (hi : i < c.pubInputs.length) :
    w_poly c (0, i) = (public_input_values c).getD i 0 := by
  rw [public_input_values_getD hi]
  simp [w_poly, rawWire, hi]

theorem sigma_poly_override [CommRing F] {c : Circuit F} {i : Nat}
    (hi : i < c.pubInputs.length) :
    sigma_poly c (0, i) = -((i : F) + 1) := by
  rw [sigma_poly, if_pos ⟨rfl, hi⟩]

theorem sigma_poly_not_override [CommRing F] {c : Circuit F} {s : Nat × Nat}
    (hs : ¬ isOverride c s) :
    sigma_poly c s = ((flat c (sigmaPre c s) : Nat) : F) := by
  rw [sigma_poly, if_neg hs]

theorem overrideSlots_sigmaFactor_prod [CommRing F] (c : Circuit F) (beta gamma : F) :
    ((overrideSlots c).map (sigmaFactor c beta gamma)).prod =
      Finset.prod (Finset.range c.pubInputs.length)
        (fun i => (public_input_values c).getD i 0 - beta * ((i : F) + 1) + gamma) := by
  rw [(List.Perm.map (sigmaFactor c beta gamma) (overrideSlots_perm c)).prod_eq,
    List.map_map, ← list_range_map_prod]
  congr 1
  apply List.map_congr_left
  intro i hi
  have hi2 := List.mem_range.mp hi
  show sigmaFactor c beta gamma (0, i) = _
  rw [sigmaFactor, sigma_poly_override hi2, w_poly_pub_col0 hi2]
  ring

theorem overrideSlots_sigmaPreFactor_prod [CommRing F] (c : Circuit F) (beta gamma : F) :
    ((overrideSlots c).map (sigmaPreFactor c beta gamma)).prod =
      Finset.prod (Finset.range c.pubInputs.length)
        (fun i => (public_input_values c).getD i 0 +
          beta * ((circuit_size c : F) + (i : F)) + gamma) := by
  rw [(List.Perm.map (sigmaPreFactor c beta gamma) (overrideSlots_perm c)).prod_eq,
    List.map_map, ← list_range_map_prod]
  congr 1
  apply List.map_congr_left
  intro i hi
  have hi2 := List.mem_range.mp hi
  show sigmaPreFactor c beta gamma (0, i) = _
  rw [sigmaPreFactor, sigmaPre_override hi2, w_poly_pub_col0 hi2]
  have hflat : flat c (1, i) = circuit_size c + i := by simp [flat]
  rw [hflat]
  push_cast
  ring

theorem nonOverride_sigmaFactor_map_eq [CommRing F] (c : Circuit F) (beta gamma : F) :
    (nonOverrideSlots c).map (sigmaFactor c beta gamma) =
      (nonOverrideSlots c).map (sigmaPreFactor c beta gamma) := by
  apply List.map_congr_left
  intro s hs
  have hno : ¬ isOverride c s := by
    have := (List.mem_filter.mp hs).2
    simpa using this
  rw [sigmaFactor, sigmaPreFactor, sigma_poly_not_override hno]

theorem public_input_delta_terms_fst [CommRing F] (beta gamma nF : F) :
    ∀ (xs : List F) (i0 : Nat), (public_input_delta_terms beta gamma nF xs i0).1 =
      Finset.prod (Finset.range xs.length)
        (fun k => xs.getD k 0 + beta * (nF + ((i0 + k : Nat) : F)) + gamma) := by
  intro xs
  induction xs with
  | nil => simp [public_input_delta_terms]
  | cons x xs ih =>
      intro i0
      have h1 : (public_input_delta_terms beta gamma nF (x :: xs) i0).1 =
          (x + beta * (nF + (i0 : F)) + gamma) *
            (public_input_delta_terms beta gamma nF xs (i0 + 1)).1 := rfl
      rw [h1, ih (i0 + 1), List.length_cons, Finset.prod_range_succ', mul_comm]
      congr 1
      · apply Finset.prod_congr rfl
        intro k _
        have hidx : i0 + 1 + k = i0 + (k + 1) := by omega
        rw [List.getD_cons_succ, hidx]

theorem public_input_delta_terms_snd [CommRing F] (beta gamma nF : F) :
    ∀ (xs : List F) (i0 : Nat), (public_input_delta_terms beta gamma nF xs i0).2 =
      Finset.prod (Finset.range xs.length)
        (fun k => xs.getD k 0 - beta * (((i0 + k : Nat) : F) + 1) + gamma) := by
  intro xs
  induction xs with
  | nil => simp [public_input_delta_terms]
  | cons x xs ih =>
      intro i0
      have h1 : (public_input_delta_terms beta gamma nF (x :: xs) i0).2 =
          (x - beta * ((i0 : F) + 1) + gamma) *
            (public_input_delta_terms beta gamma nF xs (i0 + 1)).2 := rfl
      rw [h1, ih (i0 + 1), List.length_cons, Finset.prod_range_succ', mul_comm]
      congr 1
      · apply Finset.prod_congr rfl
        intro k _
        have hidx : i0 + 1 + k = i0 + (k + 1) := by omega
        rw [List.getD_cons_succ, hidx]

theorem public_input_values_length [CommRing F] (c : Circuit F) :
    (public_input_values c).length = c.pubInputs.length := by
  simp [public_input_values]

theorem delta_num_eq [CommRing F] (c : Circuit F) (beta gamma : F) :
    (public_input_delta_terms beta gamma (circuit_size c : F) (public_input_values c) 0).1 =
      Finset.prod (Finset.range c.pubInputs.length)
        (fun i => (public_input_values c).getD i 0 +
          beta * ((circuit_size c : F) + (i : F)) + gamma) := by
  rw [public_input_delta_terms_fst, public_input_values_length]
  apply Finset.prod_congr rfl
  intro k _
  norm_num

theorem delta_den_eq [CommRing F] (c : Circuit F) (beta gamma : F) :
    (public_input_delta_terms beta gamma (circuit_size c : F) (public_input_values c) 0).2 =
      Finset.prod (Finset.range c.pubInputs.length)
        (fun i => (public_input_values c).getD i 0 - beta * ((i : F) + 1) + gamma) := by
  rw [public_input_delta_terms_snd, public_input_values_length]
  apply Finset.prod_congr rfl
  intro k _
  norm_num

/-- The multiplicative grand-product identity: the sigma-side product times
the delta numerator equals the identity-side product times the delta
denominator.  This holds for every compiled circuit by construction of the
copy cycles. -/
theorem grand_product_identity [CommRing F] (c : Circuit F) (beta gamma : F) :
    grand_product_den c beta gamma *
        (public_input_delta_terms beta gamma (circuit_size c : F) (public_input_values c) 0).1 =
      grand_product_num c beta gamma *
        (public_input_delta_terms beta gamma (circuit_size c : F) (public_input_values c) 0).2 := by
  rw [← grand_product_den_eq_slots, ← grand_product_num_eq_slots,
    ← prod_filter_split (slotList c) (isOverride c) (sigmaFactor c beta gamma),
    ← sigmaPre_product_eq_id_product,
    ← prod_filter_split (slotList c) (isOverride c) (sigmaPreFactor c beta gamma)]
  have hO : (slotList c).filter (fun s => decide (isOverride c s)) = overrideSlots c := rfl
  have hN : (slotList c).filter (fun s => decide (¬ isOverride c s)) = nonOverrideSlots c := rfl
  rw [hO, hN, nonOverride_sigmaFactor_map_eq, overrideSlots_sigmaFactor_prod,
    overrideSlots_sigmaPreFactor_prod, delta_num_eq, delta_den_eq]
  ring

/-! ### The grand product polynomial and the relation set -/

theorem z_perm_at_zero [Field F] (c : Circuit F) (beta gamma : F) :
    z_perm_at c beta gamma 0 = 1 := by
  simp [z_perm_at]

theorem partial_sigma_prod_ne_zero [Field F] {c : Circuit F} {beta gamma : F}
    (hsig : ∀ k < circuit_size c, prodSigma c beta gamma k ≠ 0)
    {i : Nat} (hi : i ≤ circuit_size c) :
    Finset.prod (Finset.range i) (prodSigma c beta gamma) ≠ 0 := by
  rw [Finset.prod_ne_zero_iff]
  intro k hk
  exact hsig k (lt_of_lt_of_le (Finset.mem_range.mp hk) hi)

theorem gpc_value_eq [Field F] (c : Circuit F) (zeta alpha beta gamma delta : F) (i : Nat) :
    grandProductComputationValue (rowAt c beta gamma i) ⟨zeta, alpha, beta, gamma, delta⟩ =
      z_perm_shift_at c beta gamma i * (1 + L_last_poly c i * (delta - 1)) *
          prodSigma c beta gamma i -
        z_perm_at c beta gamma i * prodID c beta gamma i := rfl

theorem arith_value_eq [Field F] (c : Circuit F) (beta gamma : F) (i : Nat) :
    arithmeticValue (rowAt c beta gamma i) =
      q_m_poly c i * w_poly c (0, i) * w_poly c (1, i) + q_1_poly c i * w_poly c (0, i) +
        q_2_poly c i * w_poly c (1, i) + q_3_poly c i * w_poly c (2, i) + q_c_poly c i := rfl

theorem gpi_value_eq [Field F] (c : Circuit F) (beta gamma : F) (i : Nat) :
    grandProductInitializationValue (rowAt c beta gamma i) =
      L_first_poly c i * (z_perm_at c beta gamma i - 1) := rfl

/-- The grand-product boundary relation vanishes at every row: `z_perm`
starts at 1. -/
theorem gpi_vanish [Field F] (c : Circuit F) (beta gamma : F) (i : Nat) :
    grandProductInitializationValue (rowAt c beta gamma i) = 0 := by
  rw [gpi_value_eq]
  by_cases hi : i = 0
  · subst hi
    rw [z_perm_at_zero]
    simp
  · rw [L_first_poly, if_neg hi]
    simp

/-- The arithmetic relation vanishes at every row of a circuit with a
satisfying witness: on gate rows by the gate identity, elsewhere because all
selectors are zero. -/
theorem arith_vanish [Field F] {c : Circuit F} (hsat : circuit_satisfied c)
    (beta gamma : F) (i : Nat) :
    arithmeticValue (rowAt c beta gamma i) = 0 := by
  rw [arith_value_eq]
  rcases hg : gateAt c i with _ | g
  · simp [q_m_poly, q_1_poly, q_2_poly, q_3_poly, q_c_poly, hg]
  · have hnpi : ¬ i < c.pubInputs.length := by
      intro hc
      rw [gateAt, if_pos hc] at hg
      exact Option.noConfusion hg
    rw [gateAt, if_neg hnpi] at hg
    have hgate : g ∈ c.gates := List.get?_mem hg
    rw [List.get?_eq_getElem?] at hg
    have hw0 : w_poly c (0, i) = varValue c g.wl := by
      simp [w_poly, rawWire, hnpi, hg, wireIndex]
    have hw1 : w_poly c (1, i) = varValue c g.wr := by
      simp [w_poly, rawWire, hnpi, hg, wireIndex]
    have hw2 : w_poly c (2, i) = varValue c g.wo := by
      simp [w_poly, rawWire, hnpi, hg, wireIndex]
    have hqm : q_m_poly c i = g.q_m := by simp [q_m_poly, gateAt, hnpi, hg]
    have hq1 : q_1_poly c i = g.q_1 := by simp [q_1_poly, gateAt, hnpi, hg]
    have hq2 : q_2_poly c i = g.q_2 := by simp [q_2_poly, gateAt, hnpi, hg]
    have hq3 : q_3_poly c i = g.q_3 := by simp [q_3_poly, gateAt, hnpi, hg]
    have hqc : q_c_poly c i = g.q_c := by simp [q_c_poly, gateAt, hnpi, hg]
    rw [hw0, hw1, hw2, hqm, hq1, hq2, hq3, hqc]
    exact hsat g hgate

/-- The grand-product transition relation vanishes at every row: on interior
rows by the telescoping construction of `z_perm`, and on the wrap-around row
by the grand-product identity together with the closed-form public-input
delta. -/
theorem gpc_vanish [Field F] {c : Circuit F} {beta gamma : F}
    (hsig : ∀ k < circuit_size c, prodSigma c beta gamma k ≠ 0)
    (hden : (public_input_delta_terms beta gamma (circuit_size c : F)
        (public_input_values c) 0).2 ≠ 0)
    (zeta alpha : F) {i : Nat} (hi : i < circuit_size c) :
    grandProductComputationValue (rowAt c beta gamma i)
      (paramsFor c zeta alpha beta gamma) = 0 := by
  have hpf : paramsFor c zeta alpha beta gamma =
      ⟨zeta, alpha, beta, gamma,
        compute_public_input_delta (public_input_values c) beta gamma (circuit_size c)⟩ := rfl
  rw [hpf, gpc_value_eq]
  by_cases hwrap : i + 1 < circuit_size c
  · have hLlast : L_last_poly c i = 0 := by
      rw [L_last_poly, if_neg]
      omega
    rw [hLlast, z_perm_shift_at, Nat.mod_eq_of_lt hwrap, z_perm_at, z_perm_at,
      Finset.prod_range_succ, Finset.prod_range_succ]
    have hB : Finset.prod (Finset.range i) (prodSigma c beta gamma) ≠ 0 :=
      partial_sigma_prod_ne_zero hsig (le_of_lt hi)
    have hsi : prodSigma c beta gamma i ≠ 0 := hsig i hi
    field_simp
    ring
  · obtain ⟨m, hm⟩ : ∃ m, circuit_size c = m + 1 :=
      ⟨circuit_size c - 1, by have := circuit_size_pos c; omega⟩
    have him : i = m := by omega
    subst him
    have hLlast : L_last_poly c i = 1 := by
      rw [L_last_poly, if_pos]
      omega
    have hshift : z_perm_shift_at c beta gamma i = 1 := by
      rw [z_perm_shift_at, hm]
      have : (i + 1) % (i + 1) = 0 := Nat.mod_self _
      rw [show i + 1 = i + 1 from rfl, this, z_perm_at_zero]
    rw [hLlast, hshift, z_perm_at, compute_public_input_delta, hm]
    have hden2 : (public_input_delta_terms beta gamma ((i + 1 : Nat) : F)
        (public_input_values c) 0).2 ≠ 0 := by
      rw [← hm]
      exact hden
    have hid := grand_product_identity c beta gamma
    rw [grand_product_den, grand_product_num, hm, Finset.prod_range_succ,
      Finset.prod_range_succ] at hid
    have hB : Finset.prod (Finset.range i) (prodSigma c beta gamma) ≠ 0 :=
      partial_sigma_prod_ne_zero hsig (by omega)
    set T1 := (public_input_delta_terms beta gamma ((i + 1 : Nat) : F)
      (public_input_values c) 0).1
    set T2 := (public_input_delta_terms beta gamma ((i + 1 : Nat) : F)
      (public_input_values c) 0).2
    set A := Finset.prod (Finset.range i) (prodID c beta gamma)
    set B := Finset.prod (Finset.range i) (prodSigma c beta gamma)
    set si := prodSigma c beta gamma i
    set di := prodID c beta gamma i
    rw [sub_eq_zero]
    have e1 : (1 : F) * (1 + 1 * (T1 / T2 - 1)) * si = T1 * si / T2 := by ring
    have e2 : A / B * di = A * di / B := by ring
    rw [e1, e2, div_eq_div_iff hden2 hB]
    linear_combination hid

/-! ### Claim theorems: relations, delta, Lagrange, verifier -/

/-- C4: For every circuit with a satisfying witness and all field elements
beta, gamma (with nonzero sigma-side grand product and delta denominator),
the ratio of grand products `∏(w + β·id + γ) / ∏(w + β·σ + γ)` over all wire
columns and rows equals the value returned by `compute_public_input_delta`
on the circuit's public inputs. -/
theorem grand_product_ratio_eq_delta [Field F] (c : Circuit F) (beta gamma : F)
    (_hsat : circuit_satisfied c)
    (hden : grand_product_den c beta gamma ≠ 0)
    (hT2 : (public_input_delta_terms beta gamma (circuit_size c : F)
        (public_input_values c) 0).2 ≠ 0) :
    grand_product_num c beta gamma / grand_product_den c beta gamma =
      compute_public_input_delta (public_input_values c) beta gamma (circuit_size c) := by
  rw [compute_public_input_delta, div_eq_div_iff hden hT2]
  linear_combination (grand_product_identity c beta gamma).symm

/-- C2: For every circuit compiled from a satisfying witness and any valid
relation parameters (nonzero sigma-side row products and delta denominator,
public input delta computed from the circuit's public inputs), each of the
three relations evaluates to zero at every row: accumulating from 0 with
scaling factor 1 yields 0. -/
theorem sumcheck_relations_vanish [Field F] (c : Circuit F) (zeta alpha beta gamma : F)
    (hsat : circuit_satisfied c)
    (hsig : ∀ k < circuit_size c, prodSigma c beta gamma k ≠ 0)
    (hden : (public_input_delta_terms beta gamma (circuit_size c : F)
        (public_input_values c) 0).2 ≠ 0) :
    ∀ i < circuit_size c,
      ArithmeticRelation.accumulate_relation_evaluation 0 (rowAt c beta gamma i)
          (paramsFor c zeta alpha beta gamma) 1 = 0 ∧
        GrandProductComputationRelation.accumulate_relation_evaluation 0
          (rowAt c beta gamma i) (paramsFor c zeta alpha beta gamma) 1 = 0 ∧
        GrandProductInitializationRelation.accumulate_relation_evaluation 0
          (rowAt c beta gamma i) (paramsFor c zeta alpha beta gamma) 1 = 0 := by
  intro i hi
  refine ⟨?_, ?_, ?_⟩
  · rw [ArithmeticRelation.accumulate_relation_evaluation, arith_vanish hsat beta gamma i]
    ring
  · rw [GrandProductComputationRelation.accumulate_relation_evaluation,
      gpc_vanish hsig hden zeta alpha hi]
    ring
  · rw [GrandProductInitializationRelation.accumulate_relation_evaluation,
      gpi_vanish c beta gamma i]
    ring

/-- C3: For every compiled circuit, the sigma polynomial of wire column 0
holds `-(i + 1)` on every public-input row `i`, and every other sigma entry
is the flattened index of the next slot in its copy cycle. -/
theorem sigma_public_input_rows [CommRing F] (c : Circuit F) (j i : Nat)
    (_hj : j < programWidth) (_hi : i < circuit_size c) :
    (j = 0 ∧ i < c.pubInputs.length → sigma_poly c (j, i) = -((i : F) + 1)) ∧
      (¬ (j = 0 ∧ i < c.pubInputs.length) →
        sigma_poly c (j, i) = ((flat c (sigmaPre c (j, i)) : Nat) : F)) := by
  constructor
  · rintro ⟨rfl, hpub⟩
    exact sigma_poly_override hpub
  · intro h
    exact sigma_poly_not_override h

/-- C8: For every compiled circuit of size n and every length-n polynomial p
(given by its coefficient sequence), the inner product of p with L_first is
p[0] and the inner product with L_last is p[n-1]. -/
theorem lagrange_inner_products [CommRing F] (c : Circuit F) (p : Nat → F) :
    Finset.sum (Finset.range (circuit_size c)) (fun i => p i * L_first_poly c i) = p 0 ∧
      Finset.sum (Finset.range (circuit_size c)) (fun i => p i * L_last_poly c i) =
        p (circuit_size c - 1) := by
  constructor
  · have hcongr : ∀ i ∈ Finset.range (circuit_size c),
        p i * L_first_poly c i = if i = 0 then p i else 0 := by
      intro i _
      rw [L_first_poly]
      split
      · rw [mul_one]
      · rw [mul_zero]
    rw [Finset.sum_congr rfl hcongr, Finset.sum_ite_eq' (Finset.range (circuit_size c)) 0 p,
      if_pos (Finset.mem_range.mpr (circuit_size_pos c))]
  · have hcongr : ∀ i ∈ Finset.range (circuit_size c),
        p i * L_last_poly c i = if i = circuit_size c - 1 then p i else 0 := by
      intro i _
      rw [L_last_poly]
      split
      · rw [mul_one]
      · rw [mul_zero]
    rw [Finset.sum_congr rfl hcongr,
      Finset.sum_ite_eq' (Finset.range (circuit_size c)) (circuit_size c - 1) p,
      if_pos (Finset.mem_range.mpr (by have := circuit_size_pos c; omega))]

/-- C10: `compute_public_input_delta(public_inputs, beta, gamma, n)` equals
the exact closed form `∏ᵢ (xᵢ + β(n+i) + γ) / ∏ᵢ (xᵢ - β(i+1) + γ)` with the
product index running over the public inputs, fixing the sign and offset
conventions. -/
theorem delta_closed_form [Field F] (pubs : List F) (beta gamma : F) (n : Nat) :
    compute_public_input_delta pubs beta gamma n =
      public_input_delta_closed_form pubs beta gamma n := by
  rw [compute_public_input_delta, public_input_delta_closed_form,
    public_input_delta_terms_fst, public_input_delta_terms_snd]
  congr 1
  · apply Finset.prod_congr rfl
    intro k _
    norm_num
  · apply Finset.prod_congr rfl
    intro k _
    norm_num

/-- C5: the verifier orchestrator fails closed: whenever the transcript's
circuit size or public-input count mismatch the verification key, or the
sumcheck verifier returns no result, `verify_proof` returns false for every
possible opening-stage continuation — i.e. without the Gemini, Shplonk or
KZG stages being able to influence the outcome. -/
theorem verify_proof_fails_closed [Field F] {C : Type} (key : verification_key)
    (t : HonkProofTranscript F C)
    (sumcheckVerifier : Nat → RelationParameters F → Option (SumcheckOutput F))
    (h : t.circuit_size ≠ key.circuit_size ∨ t.public_input_size ≠ key.num_public_inputs ∨
      sumcheckVerifier t.circuit_size (verifier_relation_parameters t) = none) :
    ∀ openingVerifier : SumcheckOutput F → Bool,
      verify_proof key t sumcheckVerifier openingVerifier = false := by
  intro ov
  rw [verify_proof]
  rcases h with h | h | h
  · rw [if_pos h]
  · by_cases h1 : t.circuit_size ≠ key.circuit_size
    · rw [if_pos h1]
    · rw [if_neg h1, if_pos h]
  · by_cases h1 : t.circuit_size ≠ key.circuit_size
    · rw [if_pos h1]
    · rw [if_neg h1]
      by_cases h2 : t.public_input_size ≠ key.num_public_inputs
      · rw [if_pos h2]
      · rw [if_neg h2, h]


/-! ### The sigma multiset bijection (C1) -/

theorem filter_not_split_perm (l : List (Nat × Nat)) (P : Nat × Nat → Prop)
    [DecidablePred P] :
    (l.filter (fun s => decide (P s)) ++ l.filter (fun s => decide (¬ P s))).Perm l := by
  have h1 : l.filter (fun s => decide (¬ P s)) = l.filter (fun s => !(decide (P s))) := by
    simp only [decide_not]
  rw [h1]
  exact List.filter_append_perm _ l

theorem override_split_perm (c : Circuit F) :
    (overrideSlots c ++ nonOverrideSlots c).Perm (slotList c) :=
  filter_not_split_perm (slotList c) (isOverride c)

theorem columnOnePublic_split_perm (c : Circuit F) :
    (columnOnePublicSlots c ++ nonColumnOnePublicSlots c).Perm (slotList c) :=
  filter_not_split_perm (slotList c) (fun s => s.1 = 1 ∧ s.2 < c.pubInputs.length)

/-- The pre-override permutation maps the non-override slots bijectively onto
the slots outside the public-input rows of wire column 1. -/
theorem map_sigmaPre_nonOverride_perm (c : Circuit F) :
    ((nonOverrideSlots c).map (sigmaPre c)).Perm (nonColumnOnePublicSlots c) := by
  have htot : ((overrideSlots c).map (sigmaPre c) ++
      (nonOverrideSlots c).map (sigmaPre c)).Perm
      (columnOnePublicSlots c ++ nonColumnOnePublicSlots c) := by
    rw [← List.map_append]
    refine List.Perm.trans (List.Perm.map (sigmaPre c) (override_split_perm c)) ?_
    exact List.Perm.trans (sigmaPre_map_perm c) (columnOnePublic_split_perm c).symm
  have hms : (↑((overrideSlots c).map (sigmaPre c)) : Multiset (Nat × Nat)) +
      ↑((nonOverrideSlots c).map (sigmaPre c)) =
      (↑(columnOnePublicSlots c) : Multiset (Nat × Nat)) + ↑(nonColumnOnePublicSlots c) := by
    rw [Multiset.coe_add, Multiset.coe_add]
    exact Multiset.coe_eq_coe.mpr htot
  have hO : (↑((overrideSlots c).map (sigmaPre c)) : Multiset (Nat × Nat)) =
      ↑(columnOnePublicSlots c) :=
    Multiset.coe_eq_coe.mpr (map_sigmaPre_overrideSlots_perm c)
  rw [hO] at hms
  exact Multiset.coe_eq_coe.mp (add_left_cancel hms)

/-- C1 (amended): for every compiled circuit, the multiset of sigma values
over the slots outside the public-input override rows equals the multiset of
identity values over the slots outside the public-input rows of wire
column 1 (for circuits without public inputs the two domains coincide). -/
theorem sigma_values_bijection [CommRing F] (c : Circuit F) :
    sigma_values_excluding_overrides c = id_values_excluding_column_one_public c := by
  rw [sigma_values_excluding_overrides, id_values_excluding_column_one_public]
  have h1 : (nonOverrideSlots c).map (sigma_poly c) =
      ((nonOverrideSlots c).map (sigmaPre c)).map (id_poly c) := by
    rw [List.map_map]
    apply List.map_congr_left
    intro s hs
    have hno : ¬ isOverride c s := by
      have := (List.mem_filter.mp hs).2
      simpa using this
    rw [sigma_poly_not_override hno]
    rfl
  rw [h1, ← Multiset.map_coe, ← Multiset.map_coe]
  exact congrArg (Multiset.map (id_poly c))
    (Multiset.coe_eq_coe.mpr (map_sigmaPre_nonOverride_perm c))

/-! ### Cycle traversal (C6) -/

theorem sigmaPre_eq_next {c : Circuit F} {v : Nat} {s : Nat × Nat}
    (hvar : slotVar c s = some v) :
    sigmaPre c s = nextInList (cycleSlots c v) s := by
  simp [sigmaPre, hvar]

theorem travIter_getD (c : Circuit F) {v : Nat}
    (hover : ∀ t ∈ cycleSlots c v, ¬ isOverride c t) :
    ∀ (m k : Nat), k < (cycleSlots c v).length →
      travIter c m ((cycleSlots c v).getD k (0, 0)) =
        some ((cycleSlots c v).getD ((k + m) % (cycleSlots c v).length) (0, 0)) := by
  intro m
  induction m with
  | zero =>
      intro k hk
      rw [travIter, Nat.add_zero, Nat.mod_eq_of_lt hk]
  | succ m ih =>
      intro k hk
      have hlen : 0 < (cycleSlots c v).length := by omega
      have hmem : (cycleSlots c v).getD k (0, 0) ∈ cycleSlots c v := by
        rw [List.getD_eq_getElem _ _ hk]
        exact List.getElem_mem hk
      have hvar : slotVar c ((cycleSlots c v).getD k (0, 0)) = some v :=
        slotVar_of_mem_cycleSlots hmem
      have hnext : sigmaPre c ((cycleSlots c v).getD k (0, 0)) =
          (cycleSlots c v).getD ((k + 1) % (cycleSlots c v).length) (0, 0) := by
        rw [sigmaPre_eq_next hvar, nextInList]
        have hpos : posIn (cycleSlots c v) ((cycleSlots c v).getD k (0, 0)) = k := by
          rw [List.getD_eq_getElem _ _ hk]
          exact posIn_getElem (cycleSlots_nodup c v) hk
        rw [hpos, List.getD_eq_getElem _ _ (Nat.mod_lt _ hlen),
          List.getD_eq_getElem _ _ (Nat.mod_lt _ hlen)]
      have hstep : travStep c ((cycleSlots c v).getD k (0, 0)) =
          some ((cycleSlots c v).getD ((k + 1) % (cycleSlots c v).length) (0, 0)) := by
        rw [travStep, if_neg (hover _ hmem), hnext]
      have hunfold : travIter c (m + 1) ((cycleSlots c v).getD k (0, 0)) =
          travIter c m ((cycleSlots c v).getD ((k + 1) % (cycleSlots c v).length) (0, 0)) := by
        rw [travIter, hstep]
      rw [hunfold, ih ((k + 1) % (cycleSlots c v).length) (Nat.mod_lt _ hlen)]
      congr 2
      rw [Nat.mod_add_mod]
      have harith : k + 1 + m = k + (m + 1) := by omega
      rw [harith]

/-- C6 (amended): for every variable whose copy cycle contains no
public-input override slot, traversing the sigma "next" pointers from any
slot of the cycle returns to the start after exactly the cycle length many
steps — no earlier — and the cycle length never exceeds
`program_width * n`. -/
theorem cycle_closure_no_override (c : Circuit F) (v : Nat) (s : Nat × Nat)
    (hs : s ∈ cycleSlots c v)
    (hover : ∀ t ∈ cycleSlots c v, ¬ isOverride c t) :
    travIter c (cycleSlots c v).length s = some s ∧
      (∀ m, 0 < m → m < (cycleSlots c v).length → travIter c m s ≠ some s) ∧
      (cycleSlots c v).length ≤ programWidth * circuit_size c := by
  have hk : posIn (cycleSlots c v) s < (cycleSlots c v).length := posIn_lt_length hs
  have hsk : (cycleSlots c v).getD (posIn (cycleSlots c v) s) (0, 0) = s := getD_posIn hs _
  refine ⟨?_, ?_, ?_⟩
  · have h := travIter_getD c hover (cycleSlots c v).length (posIn (cycleSlots c v) s) hk
    rw [hsk] at h
    rw [h, Nat.add_mod_right, Nat.mod_eq_of_lt hk, hsk]
  · intro m hm1 hm2 hcontra
    have h := travIter_getD c hover m (posIn (cycleSlots c v) s) hk
    rw [hsk] at h
    rw [h] at hcontra
    have hlt : (posIn (cycleSlots c v) s + m) % (cycleSlots c v).length <
        (cycleSlots c v).length := Nat.mod_lt _ (by omega)
    have heq : (cycleSlots c v).getD
        ((posIn (cycleSlots c v) s + m) % (cycleSlots c v).length) (0, 0) =
        (cycleSlots c v).getD (posIn (cycleSlots c v) s) (0, 0) := by
      rw [hsk]
      exact Option.some.inj hcontra
    rw [List.getD_eq_getElem _ _ hlt, List.getD_eq_getElem _ _ hk] at heq
    have hidx := (List.Nodup.getElem_inj_iff (cycleSlots_nodup c v)).mp heq
    have hmod : (posIn (cycleSlots c v) s + m) % (cycleSlots c v).length =
        posIn (cycleSlots c v) s % (cycleSlots c v).length := by
      rw [hidx, Nat.mod_eq_of_lt hk]
    have hdvd : (cycleSlots c v).length ∣
        (posIn (cycleSlots c v) s + m - posIn (cycleSlots c v) s) :=
      (Nat.modEq_iff_dvd' (Nat.le_add_right _ _)).mp (Nat.ModEq.symm hmod)
    have hsub : posIn (cycleSlots c v) s + m - posIn (cycleSlots c v) s = m := by omega
    rw [hsub] at hdvd
    have := Nat.le_of_dvd hm1 hdvd
    omega
  · have h1 := List.length_filter_le
      (fun s => decide (slotVar c s = some v)) (slotList c)
    rw [slotList_length] at h1
    exact le_trans h1 (le_of_eq rfl)

/-! ### Merging copy cycles with assert_equal (C7) -/

theorem length_filter_or {l : List (Nat × Nat)} (P Q : Nat × Nat → Prop)
    [DecidablePred P] [DecidablePred Q]
    (hdisj : ∀ s ∈ l, ¬ (P s ∧ Q s)) :
    (l.filter (fun s => decide (P s ∨ Q s))).length =
      (l.filter (fun s => decide (P s))).length +
        (l.filter (fun s => decide (Q s))).length := by
  induction l with
  | nil => simp
  | cons a l ih =>
      have hdisj' : ∀ s ∈ l, ¬ (P s ∧ Q s) := fun s hs => hdisj s (List.mem_cons_of_mem a hs)
      have hda : ¬ (P a ∧ Q a) := hdisj a (List.mem_cons_self a l)
      rw [List.filter_cons, List.filter_cons, List.filter_cons]
      by_cases hP : P a
      · have hQ : ¬ Q a := fun hq => hda ⟨hP, hq⟩
        rw [if_pos (by simp [hP]), if_pos (by simp [hP]), if_neg (by simp [hP, hQ]),
          List.length_cons, List.length_cons, ih hdisj']
        omega
      · by_cases hQ : Q a
        · rw [if_pos (by simp [hQ]), if_neg (by simp [hP]), if_pos (by simp [hQ]),
            List.length_cons, List.length_cons, ih hdisj']
          omega
        · rw [if_neg (by simp [hP, hQ]), if_neg (by simp [hP]), if_neg (by simp [hQ]),
            ih hdisj']

theorem assert_equal_slotVar (c : Circuit F) (a b : Nat) (s : Nat × Nat) :
    slotVar (assert_equal c a b) s = some (repOf c a) ↔
      (slotVar c s = some (repOf c a) ∨ slotVar c s = some (repOf c b)) := by
  have hraw : rawWire (assert_equal c a b) s = rawWire c s := rfl
  rw [slotVar, slotVar, hraw]
  rcases hu : rawWire c s with _ | u
  · simp
  · simp only [Option.map_some', Option.some.injEq]
    show (if c.rep u = c.rep b then c.rep a else c.rep u) = repOf c a ↔ _
    by_cases hub : c.rep u = c.rep b
    · simp [hub, if_pos, repOf]
    · simp [hub, if_neg, repOf]

/-- C7: asserting equality of two variables in distinct equality classes
produces, in the compiled circuit, one combined copy cycle whose length is
the sum of the two original cycle lengths; the variable array is unchanged
(no variable is deleted) and `b`'s class is folded into `a`'s. -/
theorem assert_equal_merges (c : Circuit F) (a b : Nat)
    (h : repOf c a ≠ repOf c b) :
    (cycleSlots (assert_equal c a b) (repOf c a)).length =
        (cycleSlots c (repOf c a)).length + (cycleSlots c (repOf c b)).length ∧
      (assert_equal c a b).vars = c.vars ∧
      repOf (assert_equal c a b) b = repOf c a := by
  refine ⟨?_, rfl, ?_⟩
  · have hslot : slotList (assert_equal c a b) = slotList c := rfl
    have hcongr : cycleSlots (assert_equal c a b) (repOf c a) =
        (slotList c).filter (fun s =>
          decide (slotVar c s = some (repOf c a) ∨ slotVar c s = some (repOf c b))) := by
      rw [cycleSlots, hslot]
      apply List.filter_congr
      intro s _
      rw [decide_eq_decide]
      exact assert_equal_slotVar c a b s
    rw [hcongr]
    exact length_filter_or _ _ (fun s _ hand => by
      have := hand.1.symm.trans hand.2
      simp only [Option.some.injEq] at this
      exact h this)
  · show (if c.rep b = c.rep b then c.rep a else c.rep b) = repOf c a
    rw [if_pos rfl]
    rfl


/-! ### End-to-end two-gate scenario (C9) -/

theorem two_gate_pubs (F : Type) [CommRing F] (x : F) :
    public_input_values (twoGateCircuit F x) = [] := rfl

theorem two_gate_size (F : Type) [CommRing F] (x : F) :
    circuit_size (twoGateCircuit F x) = 2 := rfl

theorem two_gate_hden (F : Type) [Field F] (x beta gamma : F) :
    (public_input_delta_terms beta gamma ((circuit_size (twoGateCircuit F x) : Nat) : F)
      (public_input_values (twoGateCircuit F x)) 0).2 ≠ 0 := by
  rw [two_gate_pubs]
  exact one_ne_zero

/-- When the grand-product relations vanish row by row, the batched total
reduces to the sum of the arithmetic-relation values. -/
theorem total_relation_sum_eq_arith [Field F] (c : Circuit F) (beta gamma alpha : F)
    (hsig : ∀ k < circuit_size c, prodSigma c beta gamma k ≠ 0)
    (hden : (public_input_delta_terms beta gamma (circuit_size c : F)
        (public_input_values c) 0).2 ≠ 0) :
    total_relation_sum c beta gamma alpha =
      Finset.sum (Finset.range (circuit_size c))
        (fun i => arithmeticValue (rowAt c beta gamma i)) := by
  rw [total_relation_sum]
  apply Finset.sum_congr rfl
  intro i hi
  rw [gpc_vanish hsig hden 0 alpha (Finset.mem_range.mp hi), gpi_vanish]
  ring

theorem two_gate_good_satisfied (F : Type) [Field F] :
    circuit_satisfied (twoGateCircuit F 1) := by
  intro g hg
  have hgates : (twoGateCircuit F 1).gates =
      [⟨0, 1, 2, 0, 1, 1, -1, 0⟩, ⟨3, 4, 5, 1, 0, 0, -1, 0⟩] := rfl
  rw [hgates] at hg
  rcases List.mem_cons.mp hg with rfl | hg
  · show (0 : F) * varValue _ 0 * varValue _ 1 + 1 * varValue _ 0 + 1 * varValue _ 1 +
      (-1) * varValue _ 2 + 0 = 0
    norm_num [varValue, repOf, twoGateCircuit, add_variable, create_add_gate,
      create_mul_gate, create_gate, emptyCircuit]
  · rcases List.mem_cons.mp hg with rfl | hg
    · show (1 : F) * varValue _ 3 * varValue _ 4 + 0 * varValue _ 3 + 0 * varValue _ 4 +
        (-1) * varValue _ 5 + 0 = 0
      norm_num [varValue, repOf, twoGateCircuit, add_variable, create_add_gate,
        create_mul_gate, create_gate, emptyCircuit]
    · simp at hg

theorem two_gate_bad_arith_row0 (F : Type) [Field F] (beta gamma : F) :
    arithmeticValue (rowAt (twoGateCircuit F 0) beta gamma 0) = -1 := by
  rw [arith_value_eq]
  norm_num [q_m_poly, q_1_poly, q_2_poly, q_3_poly, q_c_poly, gateAt, w_poly, rawWire,
    varValue, repOf, wireIndex, twoGateCircuit, add_variable, create_add_gate,
    create_mul_gate, create_gate, emptyCircuit]

theorem two_gate_bad_arith_row1 (F : Type) [Field F] (beta gamma : F) :
    arithmeticValue (rowAt (twoGateCircuit F 0) beta gamma 1) = 0 := by
  rw [arith_value_eq]
  norm_num [q_m_poly, q_1_poly, q_2_poly, q_3_poly, q_c_poly, gateAt, w_poly, rawWire,
    varValue, repOf, wireIndex, twoGateCircuit, add_variable, create_add_gate,
    create_mul_gate, create_gate, emptyCircuit]

/-- C9: for the two-gate circuit whose add gate enforces `1 + 1 - 2 = 0`, the
idealized verification (the relation total over all rows is zero) accepts
the satisfying witness and rejects the same circuit with the left witness
value replaced by 0 (so `0 + 1 - 2 ≠ 0`), for every beta, gamma with
nonzero sigma-side row products and every batching challenge alpha. -/
theorem two_gates_end_to_end (F : Type) [Field F] [DecidableEq F] (beta gamma alpha : F)
    (hsig1 : ∀ k < circuit_size (twoGateCircuit F 1),
      prodSigma (twoGateCircuit F 1) beta gamma k ≠ 0)
    (hsig0 : ∀ k < circuit_size (twoGateCircuit F 0),
      prodSigma (twoGateCircuit F 0) beta gamma k ≠ 0) :
    verify_ideal (twoGateCircuit F 1) beta gamma alpha = true ∧
      verify_ideal (twoGateCircuit F 0) beta gamma alpha = false := by
  constructor
  · have htot : total_relation_sum (twoGateCircuit F 1) beta gamma alpha = 0 := by
      rw [total_relation_sum_eq_arith _ _ _ _ hsig1 (two_gate_hden F 1 beta gamma)]
      apply Finset.sum_eq_zero
      intro i _
      exact arith_vanish (two_gate_good_satisfied F) beta gamma i
    rw [verify_ideal, htot]
    exact decide_eq_true rfl
  · have htot : total_relation_sum (twoGateCircuit F 0) beta gamma alpha = -1 := by
      rw [total_relation_sum_eq_arith _ _ _ _ hsig0 (two_gate_hden F 0 beta gamma),
        two_gate_size, Finset.sum_range_succ, Finset.sum_range_succ,
        Finset.sum_range_zero, two_gate_bad_arith_row0, two_gate_bad_arith_row1]
      ring
    rw [verify_ideal, htot]
    exact decide_eq_false (by simp)


/-! ### Counterexamples and concrete witnesses -/

/-- C1 counterexample: for the compiled circuit with one public input and no
gates, the multiset of sigma values outside the override rows is {0, 2}
while the multiset of identity values over the same domain is {1, 2}: the
claim fails as stated because sigma maps the override slot's cycle
predecessor onto the column-0 slot while the identity value of the column-1
public row is never attained. -/
theorem sigma_values_bijection_cex :
    ¬ (sigma_values_excluding_overrides pubOnlyCircuit =
        id_values_excluding_overrides pubOnlyCircuit) := by decide

/-- C6 counterexample: in the same one-public-input circuit, the copy cycle
of the public variable has length 2 but traversing the sigma "next" pointers
from its column-1 slot does not return to the start after 2 steps: the
traversal dies on the override slot, whose stored value is outside the valid
index range. -/
theorem cycle_closure_cex :
    (1, 0) ∈ cycleSlots pubOnlyCircuit (repOf pubOnlyCircuit 0) ∧
      (cycleSlots pubOnlyCircuit (repOf pubOnlyCircuit 0)).length = 2 ∧
      travIter pubOnlyCircuit 2 (1, 0) ≠ some (1, 0) ∧
      travIter pubOnlyCircuit 2 (1, 0) = none := by decide

/-- Witness for C2 at a concrete satisfiable circuit over ZMod 101. -/
theorem sumcheck_relations_vanish_witness :
    ArithmeticRelation.accumulate_relation_evaluation 0
        (rowAt (sampleCircuit (ZMod 101)) 1 2 0)
        (paramsFor (sampleCircuit (ZMod 101)) 0 1 1 2) 1 = 0 ∧
      GrandProductComputationRelation.accumulate_relation_evaluation 0
        (rowAt (sampleCircuit (ZMod 101)) 1 2 0)
        (paramsFor (sampleCircuit (ZMod 101)) 0 1 1 2) 1 = 0 ∧
      GrandProductInitializationRelation.accumulate_relation_evaluation 0
        (rowAt (sampleCircuit (ZMod 101)) 1 2 0)
        (paramsFor (sampleCircuit (ZMod 101)) 0 1 1 2) 1 = 0 :=
  sumcheck_relations_vanish (sampleCircuit (ZMod 101)) 0 1 1 2
    (by decide) (by decide) (by decide) 0 (by decide)

/-- Witness for C3 at a concrete circuit with one public input. -/
theorem sigma_public_input_rows_witness :
    sigma_poly (sampleCircuit (ZMod 101)) (0, 0) = -(((0 : Nat) : ZMod 101) + 1) :=
  (sigma_public_input_rows (sampleCircuit (ZMod 101)) 0 0 (by decide) (by decide)).1
    ⟨rfl, by decide⟩

/-- Witness for C4 at a concrete satisfiable circuit over ZMod 101. -/
theorem grand_product_ratio_eq_delta_witness :
    grand_product_num (sampleCircuit (ZMod 101)) 1 2 /
        grand_product_den (sampleCircuit (ZMod 101)) 1 2 =
      compute_public_input_delta (public_input_values (sampleCircuit (ZMod 101))) 1 2
        (circuit_size (sampleCircuit (ZMod 101))) :=
  grand_product_ratio_eq_delta (sampleCircuit (ZMod 101)) 1 2
    (by decide) (by decide) (by decide)

/-- Witness for C5: a transcript claiming circuit size 8 against a key of
circuit size 4 is rejected regardless of the opening stages. -/
theorem verify_proof_fails_closed_witness :
    verify_proof (F := ZMod 101) (C := Unit) ⟨4, 0⟩
        ⟨8, 0, fun _ => 0, fun _ => (), 1, 1, ()⟩ (fun _ _ => none) (fun _ => true) = false :=
  verify_proof_fails_closed ⟨4, 0⟩ ⟨8, 0, fun _ => 0, fun _ => (), 1, 1, ()⟩
    (fun _ _ => none) (Or.inl (by decide)) (fun _ => true)

/-- Witness for C6 (amended) on a circuit without public inputs. -/
theorem cycle_closure_no_override_witness :
    travIter (twoGateCircuit (ZMod 101) 1)
        (cycleSlots (twoGateCircuit (ZMod 101) 1) 0).length (0, 0) = some (0, 0) :=
  (cycle_closure_no_override (twoGateCircuit (ZMod 101) 1) 0 (0, 0)
    (by decide) (by decide)).1

/-- Witness for C7: merging the cycles of variables 0 and 1 of the concrete
circuit. -/
theorem assert_equal_merges_witness :
    (cycleSlots (assert_equal (sampleCircuit (ZMod 101)) 0 1)
        (repOf (sampleCircuit (ZMod 101)) 0)).length =
        (cycleSlots (sampleCircuit (ZMod 101)) (repOf (sampleCircuit (ZMod 101)) 0)).length +
          (cycleSlots (sampleCircuit (ZMod 101)) (repOf (sampleCircuit (ZMod 101)) 1)).length ∧
      (assert_equal (sampleCircuit (ZMod 101)) 0 1).vars = (sampleCircuit (ZMod 101)).vars ∧
      repOf (assert_equal (sampleCircuit (ZMod 101)) 0 1) 1 =
        repOf (sampleCircuit (ZMod 101)) 0 :=
  assert_equal_merges (sampleCircuit (ZMod 101)) 0 1 (by decide)

/-- Witness for C9 at concrete challenges over ZMod 101. -/
theorem two_gates_end_to_end_witness :
    verify_ideal (twoGateCircuit (ZMod 101) 1) 3 7 5 = true ∧
      verify_ideal (twoGateCircuit (ZMod 101) 0) 3 7 5 = false :=
  two_gates_end_to_end (ZMod 101) 3 7 5 (by decide) (by decide)

end Honk
